import Mathlib

/-
Verification of the quicknotes note-storage and indexing core.

The Rust sources are shallowly embedded:
* text is `List Char` (Rust `String` / file contents);
* filesystem paths are `List (List Char)` (path components);
* the filesystem is an association list from paths to contents, and every
  filesystem-mutating operation threads the filesystem state explicitly;
* fallible Rust functions returning `Result` become `Except`;
* Rust panics (`expect` / `unwrap` failures) are modelled as `Option.none`
  outcomes, clearly marked at each definition;
* machine integers are `Nat` / `Int` with explicit range checks and explicit
  wrap-around (`% 2 ^ 32`) where the Rust code can overflow.
-/

deriving instance DecidableEq for Except

namespace Quicknotes

/-! ## Decimal digits

Helpers shared by the numbered-suffix collision scan (`u32` parsing and
`Display` formatting) and the timestamp codec (zero-padded fields). -/

/-- The ten ASCII digit characters, by value. Values `≥ 10` never arise. -/
def digitChar : Nat → Char
  | 0 => '0'
  | 1 => '1'
  | 2 => '2'
  | 3 => '3'
  | 4 => '4'
  | 5 => '5'
  | 6 => '6'
  | 7 => '7'
  | 8 => '8'
  | 9 => '9'
  | _ => '*'

/-- Numeric value of an ASCII digit character. -/
def digitVal (c : Char) : Nat := c.toNat - 48

/-- Structural engine for `natDecimal`: `fuel` only forces termination and
never runs out when `n < fuel` (see `natDecimal_unfold`). -/
def natDecimalGo : Nat → Nat → List Char
  | 0, _ => []
  | fuel + 1, n =>
    if n < 10 then [digitChar n]
    else natDecimalGo fuel (n / 10) ++ [digitChar (n % 10)]

/-- Decimal representation of a natural number, most significant digit first.
This is exactly Rust's `Display` for unsigned integers (no padding, `0` is
printed as a single digit). -/
def natDecimal (n : Nat) : List Char := natDecimalGo (n + 1) n

theorem natDecimalGo_irrel :
    ∀ f1 n, n < f1 → ∀ f2, n < f2 → natDecimalGo f1 n = natDecimalGo f2 n := by
  intro f1
  induction f1 with
  | zero => intro n h; omega
  | succ g ih =>
    intro n h f2 h2
    cases f2 with
    | zero => omega
    | succ h2' =>
      simp only [natDecimalGo]
      split
      · rfl
      · rename_i hge
        have hlt : n / 10 < n := Nat.div_lt_self (by omega) (by omega)
        rw [ih (n / 10) (by omega) h2' (by omega)]

/-- The defining recurrence of `natDecimal`, mirroring the digit-by-digit
construction of Rust's decimal formatting. -/
theorem natDecimal_unfold (n : Nat) :
    natDecimal n = if n < 10 then [digitChar n] else natDecimal (n / 10) ++ [digitChar (n % 10)] := by
  show natDecimalGo (n + 1) n = _
  simp only [natDecimalGo]
  split
  · rfl
  · rename_i hge
    have hlt : n / 10 < n := Nat.div_lt_self (by omega) (by omega)
    rw [natDecimalGo_irrel n (n / 10) (by omega) (n / 10 + 1) (by omega)]
    rfl

/-- Accumulating decimal parse: the value of `ds` appended to high-order
value `a` (one step per digit, as Rust's `str::parse` does). -/
def foldDigitsFrom (a : Nat) (ds : List Char) : Nat :=
  ds.foldl (fun acc c => acc * 10 + digitVal c) a

/-- Value of a digit string, most significant digit first. -/
def foldDigits (ds : List Char) : Nat := foldDigitsFrom 0 ds

theorem digitVal_digitChar {d : Nat} (h : d < 10) : digitVal (digitChar d) = d := by
  interval_cases d <;> rfl

theorem digitChar_isDigit {d : Nat} (h : d < 10) : (digitChar d).isDigit = true := by
  interval_cases d <;> rfl

theorem digitChar_ne_newline {d : Nat} (h : d < 10) : digitChar d ≠ '\n' := by
  interval_cases d <;> decide

theorem foldDigitsFrom_append (a : Nat) (l1 l2 : List Char) :
    foldDigitsFrom a (l1 ++ l2) = foldDigitsFrom (foldDigitsFrom a l1) l2 := by
  simp [foldDigitsFrom, List.foldl_append]

theorem natDecimal_ne_nil (n : Nat) : natDecimal n ≠ [] := by
  rw [natDecimal_unfold]
  split <;> simp

theorem natDecimal_all_digit (n : Nat) : ∀ c ∈ natDecimal n, c.isDigit = true := by
  induction n using Nat.strong_induction_on with
  | _ n ih =>
    rw [natDecimal_unfold]
    split
    · intro c hc
      simp only [List.mem_singleton] at hc
      subst hc
      exact digitChar_isDigit (by omega)
    · intro c hc
      rcases List.mem_append.mp hc with h1 | h2
      · exact ih (n / 10) (Nat.div_lt_self (by omega) (by omega)) c h1
      · simp only [List.mem_singleton] at h2
        subst h2
        exact digitChar_isDigit (Nat.mod_lt _ (by omega))

theorem foldDigitsFrom_natDecimal (n : Nat) :
    ∀ a : Nat, foldDigitsFrom a (natDecimal n) = a * 10 ^ (natDecimal n).length + n := by
  induction n using Nat.strong_induction_on with
  | _ n ih =>
    intro a
    rw [natDecimal_unfold]
    split
    · simp [foldDigitsFrom, digitVal_digitChar (by omega : n < 10)]
    · rw [foldDigitsFrom_append, ih (n / 10) (Nat.div_lt_self (by omega) (by omega))]
      simp only [foldDigitsFrom, List.foldl_cons, List.foldl_nil, List.length_append,
        List.length_singleton]
      rw [digitVal_digitChar (Nat.mod_lt _ (by omega))]
      rw [pow_succ]
      have := Nat.div_add_mod n 10
      ring_nf
      omega

theorem foldDigits_natDecimal (n : Nat) : foldDigits (natDecimal n) = n := by
  simpa [foldDigits] using foldDigitsFrom_natDecimal n 0

theorem natDecimal_length_le {n k : Nat} (hk : 1 ≤ k) (h : n < 10 ^ k) :
    (natDecimal n).length ≤ k := by
  induction k generalizing n with
  | zero => omega
  | succ k ih =>
    rw [natDecimal_unfold]
    split
    · exact Nat.succ_le_succ (Nat.zero_le k)
    · rename_i hn
      have hk1 : 1 ≤ k := by
        rcases Nat.eq_zero_or_pos k with h0 | h0
        · subst h0
          norm_num at h
          omega
        · omega
      have : n / 10 < 10 ^ k := by
        rw [pow_succ] at h
        exact Nat.div_lt_of_lt_mul (by omega)
      have := ih hk1 this
      simp only [List.length_append, List.length_singleton]
      omega

/-- `takeWhile` stops exactly at the first element violating the predicate. -/
theorem takeWhile_append_of_all {p : Char → Bool} {l1 l2 : List Char} {c : Char}
    (h1 : ∀ x ∈ l1, p x = true) (hc : p c = false) :
    (l1 ++ c :: l2).takeWhile p = l1 := by
  induction l1 with
  | nil => simp [List.takeWhile, hc]
  | cons x xs ih =>
    have hx : p x = true := h1 x (by simp)
    simp only [List.cons_append, List.takeWhile, hx]
    rw [List.append_eq, ih (fun y hy => h1 y (by simp [hy]))]

/-- `dropWhile` counterpart of `takeWhile_append_of_all`. -/
theorem dropWhile_append_of_all {p : Char → Bool} {l1 l2 : List Char} {c : Char}
    (h1 : ∀ x ∈ l1, p x = true) (hc : p c = false) :
    (l1 ++ c :: l2).dropWhile p = c :: l2 := by
  induction l1 with
  | nil => simp [List.dropWhile, hc]
  | cons x xs ih =>
    have hx : p x = true := h1 x (by simp)
    simp only [List.cons_append, List.dropWhile, hx]
    rw [List.append_eq]
    exact ih (fun y hy => h1 y (by simp [hy]))

/-! ## Filesystem model

Paths are lists of components; the filesystem is an association list from
paths to file contents. The only mutation the storage layer performs is the
exclusive `create_new` insert of `copy_to_destination`, so this ideal model
has no I/O faults other than "destination already exists"; `io::Error` kinds
are carried so the code's `AlreadyExists` dispatch stays faithful. -/

abbrev Chars := List Char

abbrev FsPath := List Chars

abbrev FS := List (FsPath × Chars)

/-- Contents of the file at `p`, if any (first binding wins). -/
def fsGet (fs : FS) (p : FsPath) : Option Chars :=
  match fs with
  | [] => none
  | (q, c) :: rest => if q = p then some c else fsGet rest p

/-- The file names directly inside directory `dir`: models `fs::read_dir`,
which in this ideal filesystem always succeeds. -/
def dirListing (fs : FS) (dir : FsPath) : List Chars :=
  fs.filterMap (fun e =>
    match e.1.getLast? with
    | some n => if e.1.dropLast = dir then some n else none
    | none => none)

/-- The `io::ErrorKind`s the storage code inspects. -/
inductive IoErrorKind
  | alreadyExists
  | other
deriving DecidableEq, Repr

/-- Observable side effects: `warning!` emissions and the tempfile `keep`
performed by `try_preserve_note`. -/
inductive Event
  | preserved (path : FsPath)
  | warnedExists (destination : FsPath)
deriving DecidableEq, Repr

/-- `TempFileHandle` from storage.rs: the staged note's path, its bytes, and
the read cursor of the `BufReader` opened over it. -/
structure TempFileHandle where
  path : FsPath
  contents : Chars
  pos : Nat
deriving DecidableEq, Repr

/-- The bytes a read from the handle's current cursor position yields. -/
def TempFileHandle.remaining (t : TempFileHandle) : Chars := t.contents.drop t.pos

inductive CopyToDestinationError
  | fileSetupError (kind : IoErrorKind)
  | copyError (kind : IoErrorKind)
deriving DecidableEq, Repr

def CopyToDestinationError.is_destination_exists : CopyToDestinationError → Bool
  | .fileSetupError .alreadyExists => true
  | _ => false

/-- The `io::Error` recovered via `From<CopyToDestinationError> for io::Error`. -/
def CopyToDestinationError.kind : CopyToDestinationError → IoErrorKind
  | .fileSetupError k => k
  | .copyError k => k

/-- `copy_to_destination`: an exclusive (`create_new`) copy of the staged
bytes to `dest`. If a file exists at `dest`, it fails with `AlreadyExists`
touching neither the filesystem nor the cursor; otherwise it creates the file
with the bytes read from the current cursor, leaving the cursor at
end-of-file. -/
def copy_to_destination (t : TempFileHandle) (dest : FsPath) (fs : FS) :
    Except CopyToDestinationError Unit × TempFileHandle × FS :=
  match fsGet fs dest with
  | some _ => (.error (.fileSetupError .alreadyExists), t, fs)
  | none => (.ok (), { t with pos := t.contents.length }, (dest, t.remaining) :: fs)

/-- `try_preserve_note`'s failure case: `keep` failed and the fallback read of
the tempfile failed too. Unreachable in this ideal filesystem (`keep` is a
platform-specific failure, e.g. on Windows), but kept for shape. -/
inductive TryPreserveNoteError
  | noteLost (keep_error read_error : IoErrorKind)
deriving DecidableEq, Repr

/-- `try_preserve_note`: converts the doomed staged file into a permanent file
at its own path (`TempPath::keep`). In this ideal filesystem `keep` always
succeeds, so the file simply stays at `t.path` and the `.preserved` event
records the call. -/
def try_preserve_note (t : TempFileHandle) (fs : FS) :
    Except TryPreserveNoteError Unit × FS × List Event :=
  (.ok (), fs, [.preserved t.path])

/-- `StoreNoteAt`: store at an exact destination, never overwriting. -/
structure StoreNoteAt where
  destination : FsPath
deriving DecidableEq, Repr

inductive StoreNoteAtError
  | copyError (src : FsPath) (destination : FsPath) (err : IoErrorKind)
  | tryPreserveNoteError (e : TryPreserveNoteError)
deriving DecidableEq, Repr

/-- `StoreNoteAt::do_store`: one exclusive copy attempt; on any failure,
preserve the staged note, then surface `CopyError` with the underlying
`io::Error`. No retry, no alternate destination. -/
def StoreNoteAt.do_store (s : StoreNoteAt) (t : TempFileHandle) (fs : FS) :
    Except StoreNoteAtError FsPath × FS × List Event :=
  match copy_to_destination t s.destination fs with
  | (.ok _, _, fs') => (.ok s.destination, fs', [])
  | (.error err, t', fs') =>
    match try_preserve_note t' fs' with
    | (.ok _, fs'', log) => (.error (.copyError t'.path s.destination err.kind), fs'', log)
    | (.error pe, fs'', log) => (.error (.tryPreserveNoteError pe), fs'', log)

/-! ## The numbered-suffix collision scan

`find_next_destination_basename` scans a directory with the regex
`escape(stem)-(\d+).escape(ext)` (note: unanchored, and the dot before the
extension is an unescaped regex `.`, matching any character except a
newline). The model below implements leftmost-first matching with greedy,
backtracking `\d+`, exactly as the `regex` crate resolves this pattern.
`\d` in the `regex` crate is Unicode-aware: it matches every character of
general category `Nd` (decimal number), not only ASCII digits — while
`str::parse::<u32>` accepts ASCII digits only, so a captured non-ASCII
digit makes the `expect` panic exactly like an overflow does. -/

/-- The code point ranges of Unicode general category `Nd` (decimal
number), Unicode 15.0 — the character class the `regex` crate's `\d`
matches. -/
def ndRanges : List (Nat × Nat) :=
  [(0x30, 0x39), (0x660, 0x669), (0x6F0, 0x6F9), (0x7C0, 0x7C9),
   (0x966, 0x96F), (0x9E6, 0x9EF), (0xA66, 0xA6F), (0xAE6, 0xAEF),
   (0xB66, 0xB6F), (0xBE6, 0xBEF), (0xC66, 0xC6F), (0xCE6, 0xCEF),
   (0xD66, 0xD6F), (0xDE6, 0xDEF), (0xE50, 0xE59), (0xED0, 0xED9),
   (0xF20, 0xF29), (0x1040, 0x1049), (0x1090, 0x1099), (0x17E0, 0x17E9),
   (0x1810, 0x1819), (0x1946, 0x194F), (0x19D0, 0x19D9), (0x1A80, 0x1A89),
   (0x1A90, 0x1A99), (0x1B50, 0x1B59), (0x1BB0, 0x1BB9), (0x1C40, 0x1C49),
   (0x1C50, 0x1C59), (0xA620, 0xA629), (0xA8D0, 0xA8D9), (0xA900, 0xA909),
   (0xA9D0, 0xA9D9), (0xA9F0, 0xA9F9), (0xAA50, 0xAA59), (0xABF0, 0xABF9),
   (0xFF10, 0xFF19), (0x104A0, 0x104A9), (0x10D30, 0x10D39),
   (0x11066, 0x1106F), (0x110F0, 0x110F9), (0x11136, 0x1113F),
   (0x111D0, 0x111D9), (0x112F0, 0x112F9), (0x11450, 0x11459),
   (0x114D0, 0x114D9), (0x11650, 0x11659), (0x116C0, 0x116C9),
   (0x11730, 0x11739), (0x118E0, 0x118E9), (0x11950, 0x11959),
   (0x11C50, 0x11C59), (0x11D50, 0x11D59), (0x11DA0, 0x11DA9),
   (0x11F50, 0x11F59), (0x16A60, 0x16A69), (0x16AC0, 0x16AC9),
   (0x16B50, 0x16B59), (0x1D7CE, 0x1D7FF), (0x1E140, 0x1E149),
   (0x1E2F0, 0x1E2F9), (0x1E4F0, 0x1E4F9), (0x1E950, 0x1E959),
   (0x1FBF0, 0x1FBF9)]

/-- `\d` of the `regex` crate: a Unicode decimal digit (category `Nd`). -/
def isUnicodeDigit (c : Char) : Bool :=
  ndRanges.any fun r => decide (r.1 ≤ c.toNat) && decide (c.toNat ≤ r.2)

/-- Greedy backtracking for the capture `(\d+)` followed by `.` (any
character but a newline) and the literal extension: try the `k` longest
digit-run splits, longest first. `ds` is the maximal digit run starting at
`rest2`. -/
def greedyCapture (ext ds rest2 : Chars) : Nat → Option Chars
  | 0 => none
  | k + 1 =>
    match rest2.drop (k + 1) with
    | [] => greedyCapture ext ds rest2 k
    | c :: after2 =>
      if c != '\n' && ext.isPrefixOf after2 then some (ds.take (k + 1))
      else greedyCapture ext ds rest2 k

/-- Try to match `escape(stem)-(\d+).escape(ext)` starting exactly at the
beginning of `name`; returns the captured digit run on success. -/
def tryMatchAt (stem ext name : Chars) : Option Chars :=
  if stem.isPrefixOf name then
    match name.drop stem.length with
    | '-' :: rest2 =>
      let ds := rest2.takeWhile isUnicodeDigit
      if ds.isEmpty then none else greedyCapture ext ds rest2 ds.length
    | _ => none
  else none

/-- `Regex::captures`: leftmost-first match of the collision pattern over a
file name; returns the first capture group. -/
def capturesValue (stem ext : Chars) : Chars → Option Chars
  | [] => tryMatchAt stem ext []
  | c :: tl =>
    match tryMatchAt stem ext (c :: tl) with
    | some ds => some ds
    | none => capturesValue stem ext tl

/-- `str::parse::<u32>` on a captured digit run: succeeds exactly when the
run consists of ASCII digits and its value fits `u32`. A non-ASCII Unicode
digit — which the regex happily captures — is rejected just like an
overflow. -/
def parseU32 (ds : Chars) : Option Nat :=
  if ds.all Char.isDigit then
    let n := foldDigits ds
    if n < 4294967296 then some n else none
  else none

/-- Parse every captured suffix; `none` if any of them fails `u32` parsing
— a non-ASCII digit or an overflow — which in the code is the
`expect("pattern must guarantee we have a number")` panic. -/
def parseAllU32 : List Chars → Option (List Nat)
  | [] => some []
  | ds :: rest =>
    match parseU32 ds, parseAllU32 rest with
    | some n, some ns => some (n :: ns)
    | _, _ => none

/-- `find_next_destination_basename`: scan `dir` for file names matching the
collision pattern, take the largest captured suffix (0 when none match) plus
one, and render `stem-<suffix>.ext`. `none` models the panic when a captured
suffix does not fit in `u32`; the `+ 1` is `u32` arithmetic, which wraps in
release builds, hence the `% 4294967296`. The `ReadDirError` channel of the
original cannot fire in this ideal filesystem and is dropped. -/
def find_next_destination_basename (fs : FS) (dir : FsPath) (stem ext : Chars) :
    Option Chars :=
  match parseAllU32 ((dirListing fs dir).filterMap (capturesValue stem ext)) with
  | none => none
  | some ns =>
    some (stem ++ '-' :: natDecimal ((ns.foldl max 0 + 1) % 4294967296) ++ '.' :: ext)

/-- Split a file name at its last dot, as Rust's `Path::file_stem` /
`Path::extension` do: `none` for the empty name; no dot, or only a leading
dot, gives no extension. -/
def splitAtLastDot (name : Chars) : Option (Chars × Option Chars) :=
  if name.isEmpty then none
  else
    let extRev := name.reverse.takeWhile (fun c => c != '.')
    if extRev.length = name.length then some (name, none)
    else
      let st := name.take (name.length - extRev.length - 1)
      if st.isEmpty then some (name, none)
      else some (st, some extRev.reverse)

/-- Rust's `Path::with_extension` restricted to a single file-name component:
replace the current extension (if any) by `ext`. On an empty name
`set_extension` is a no-op. -/
def withExtension (name ext : Chars) : Chars :=
  match splitAtLastDot name with
  | none => name
  | some (st, _) => if ext.isEmpty then st else st ++ '.' :: ext

/-- `generate_unclobbered_destination`: re-derive stem and extension from the
colliding destination path and ask the scan for the next basename. `none`
models the `expect` panics (no file name, no extension) and the suffix-parse
panic inside the scan. -/
def generate_unclobbered_destination (fs : FS) (path : FsPath) : Option FsPath :=
  match path.getLast? with
  | none => none
  | some name =>
    match splitAtLastDot name with
    | none => none
    | some (_, none) => none
    | some (st, some ex) =>
      match find_next_destination_basename fs path.dropLast st ex with
      | none => none
      | some basename => some (path.dropLast ++ [basename])

/-- `StoreNoteIn`: store into a directory under a preferred stem/extension,
generating numbered alternatives on collision. -/
structure StoreNoteIn where
  storage_directory : FsPath
  preferred_file_stem : Chars
  file_extension : Chars
deriving DecidableEq, Repr

inductive StoreNoteInError
  | copyError (src : FsPath) (destination : FsPath) (err : IoErrorKind)
  | noteClobberPreventionError (src : FsPath) (destination : FsPath)
  | tryPreserveNoteError (e : TryPreserveNoteError)
deriving DecidableEq, Repr

/-- The retry loop of `StoreNoteIn::do_store`. The Rust loop is unbounded; in
this single-process model every collision consumes a distinct existing file
name, so `fs.length + 2` fuel always suffices, and the `none` fuel-exhaustion
outcome is unreachable (see `do_store` below). The staged handle and the
pre-existing filesystem never change across failed iterations, so they stay
fixed parameters. -/
def do_store_loop (t : TempFileHandle) (fs : FS) :
    FsPath → Nat → List Event → Option (Except StoreNoteInError FsPath) × FS × List Event
  | _, 0, log => (none, fs, log)
  | dest, fuel + 1, log =>
    match copy_to_destination t dest fs with
    | (.ok _, _, fs') => (some (.ok dest), fs', log)
    | (.error err, t', fs') =>
      if err.is_destination_exists then
        match generate_unclobbered_destination fs' dest with
        | some newDest => do_store_loop t fs newDest fuel (log ++ [.warnedExists dest])
        | none => (none, fs', log ++ [.warnedExists dest])
      else
        match try_preserve_note t' fs' with
        | (.ok _, fs'', plog) =>
          (some (.error (.copyError t'.path dest err.kind)), fs'', log ++ plog)
        | (.error pe, fs'', plog) =>
          (some (.error (.tryPreserveNoteError pe)), fs'', log ++ plog)

/-- `StoreNoteIn::do_store`: first candidate is
`storage_directory/(preferred_file_stem).(file_extension)` via `join` +
`with_extension`, then the retry loop. -/
def StoreNoteIn.do_store (s : StoreNoteIn) (t : TempFileHandle) (fs : FS) :
    Option (Except StoreNoteInError FsPath) × FS × List Event :=
  do_store_loop t fs
    (s.storage_directory ++ [withExtension s.preferred_file_stem s.file_extension])
    (fs.length + 2) []

inductive InnerStoreNoteError
  | storeNoteInError (e : StoreNoteInError)
  | storeNoteAtError (e : StoreNoteAtError)
deriving DecidableEq, Repr

/-- The opaque public error of the sealed `StoreNote` trait. -/
structure StoreNoteError where
  inner : InnerStoreNoteError
deriving DecidableEq, Repr

/-- The sealed `StoreNote` trait has exactly two implementations; model it as
a closed sum. `StoreStrategy.store` is the trait's `store` method. -/
inductive StoreStrategy
  | storeNoteAt (s : StoreNoteAt)
  | storeNoteIn (s : StoreNoteIn)
deriving DecidableEq, Repr

def StoreStrategy.store :
    StoreStrategy → TempFileHandle → FS →
      Option (Except StoreNoteError FsPath) × FS × List Event
  | .storeNoteAt s, t, fs =>
    match s.do_store t fs with
    | (.ok p, fs', log) => (some (.ok p), fs', log)
    | (.error e, fs', log) => (some (.error ⟨.storeNoteAtError e⟩), fs', log)
  | .storeNoteIn s, t, fs =>
    match s.do_store t fs with
    | (none, fs', log) => (none, fs', log)
    | (some (.ok p), fs', log) => (some (.ok p), fs', log)
    | (some (.error e), fs', log) => (some (.error ⟨.storeNoteInError e⟩), fs', log)

/-- `is_different`: compare the SHA-256 of the baseline against the SHA-256
of the bytes readable from the staged handle's current cursor. Hash equality
is modelled as byte equality (the spec treats collision probability as
zero). Hashing consumes the stream; on a difference the cursor is rewound to
the start, on equality it is left at end-of-file. -/
def is_different (t : TempFileHandle) (against : Chars) : Bool × TempFileHandle :=
  if against = t.remaining then (false, { t with pos := t.contents.length })
  else (true, { t with pos := 0 })

inductive InnerStoreIfDifferentError
  | checkFileError (path : FsPath) (err : IoErrorKind)
  | tryPreserveNoteError (e : TryPreserveNoteError)
  | storeNoteError (e : StoreNoteError)
deriving DecidableEq, Repr

/-- `store_if_different`: the content-diff gate. Equal content returns
`none` (no commit, filesystem untouched); different content rewinds the
handle and delegates to the strategy. The `CheckFileError` branch needs an
I/O fault while hashing and cannot fire in this model. -/
def store_if_different (storage : StoreStrategy) (t : TempFileHandle) (against : Chars)
    (fs : FS) : Option (Except InnerStoreIfDifferentError (Option FsPath)) × FS × List Event :=
  match is_different t against with
  | (false, _) => (some (.ok none), fs, [])
  | (true, t1) =>
    match storage.store t1 fs with
    | (none, fs', log) => (none, fs', log)
    | (some (.ok p), fs', log) => (some (.ok (some p)), fs', log)
    | (some (.error e), fs', log) => (some (.error (.storeNoteError e)), fs', log)

/-! ## Storage lemmas -/

theorem fsGet_insert_fresh {fs : FS} {dest : FsPath} {x : Chars} {p : FsPath} {c : Chars}
    (hfresh : fsGet fs dest = none) (h : fsGet fs p = some c) :
    fsGet ((dest, x) :: fs) p = some c := by
  simp only [fsGet]
  split
  · rename_i heq
    subst heq
    rw [h] at hfresh
    exact absurd hfresh (by simp)
  · exact h

theorem fsGet_some_mem {fs : FS} {p : FsPath} {c : Chars} (h : fsGet fs p = some c) :
    (p, c) ∈ fs := by
  induction fs with
  | nil => simp [fsGet] at h
  | cons e rest ih =>
    obtain ⟨q, d⟩ := e
    simp only [fsGet] at h
    split at h
    · rename_i heq
      subst heq
      simp only [Option.some.injEq] at h
      subst h
      simp
    · exact List.mem_cons_of_mem _ (ih h)

theorem mem_dirListing_of_fsGet {fs : FS} {dir : FsPath} {b : Chars} {x : Chars}
    (h : fsGet fs (dir ++ [b]) = some x) : b ∈ dirListing fs dir := by
  refine List.mem_filterMap.mpr ⟨(dir ++ [b], x), fsGet_some_mem h, ?_⟩
  simp [List.getLast?_concat, List.dropLast_concat]

theorem do_store_loop_preserves (t : TempFileHandle) (fs : FS) (p : FsPath) (c : Chars)
    (h : fsGet fs p = some c) :
    ∀ (fuel : Nat) (dest : FsPath) (log : List Event),
      fsGet (do_store_loop t fs dest fuel log).2.1 p = some c := by
  intro fuel
  induction fuel with
  | zero => intro dest log; exact h
  | succ fuel ih =>
    intro dest log
    cases hq : fsGet fs dest with
    | some v =>
      simp only [do_store_loop, copy_to_destination, hq,
        CopyToDestinationError.is_destination_exists]
      cases hg : generate_unclobbered_destination fs dest with
      | some newDest => simp only [hg]; exact ih _ _
      | none => simp only [hg]; exact h
    | none =>
      simp only [do_store_loop, copy_to_destination, hq]
      exact fsGet_insert_fresh hq h

theorem storeAt_preserves (s : StoreNoteAt) (t : TempFileHandle) (fs : FS) (p : FsPath)
    (c : Chars) (h : fsGet fs p = some c) : fsGet (s.do_store t fs).2.1 p = some c := by
  cases hq : fsGet fs s.destination with
  | some v =>
    simp only [StoreNoteAt.do_store, copy_to_destination, hq, try_preserve_note]
    exact h
  | none =>
    simp only [StoreNoteAt.do_store, copy_to_destination, hq]
    exact fsGet_insert_fresh hq h

theorem storeIn_preserves (s : StoreNoteIn) (t : TempFileHandle) (fs : FS) (p : FsPath)
    (c : Chars) (h : fsGet fs p = some c) : fsGet (s.do_store t fs).2.1 p = some c := by
  exact do_store_loop_preserves t fs p c h _ _ _

/-! ## Claim C5 -/

/-- C5: the content-diff gate. With staged bytes (as readable from the
handle's cursor) byte-identical to the baseline, `store_if_different`
returns `None` and creates no file (the filesystem is returned untouched);
with any difference it first rewinds the staged handle's cursor to the start
and delegates the commit to the strategy, returning `Some` of the committed
path on success. The `None`-no-commit outcome happens exactly on
byte-identical content. -/
theorem store_if_different_gate (storage : StoreStrategy) (t : TempFileHandle)
    (against : Chars) (fs : FS) :
    (t.remaining = against →
      store_if_different storage t against fs = (some (.ok none), fs, [])) ∧
    (t.remaining ≠ against →
      (store_if_different storage t against fs).1 =
        (storage.store { t with pos := 0 } fs).1.map
          (fun r => (r.map some).mapError .storeNoteError) ∧
      (store_if_different storage t against fs).2 =
        (storage.store { t with pos := 0 } fs).2) ∧
    ((store_if_different storage t against fs).1 = some (.ok none) ↔
      t.remaining = against) := by
  by_cases h : against = t.remaining
  · refine ⟨fun _ => ?_, fun hne => absurd h.symm hne, fun _ => h.symm, fun _ => ?_⟩
    · simp only [store_if_different, is_different, if_pos h]
    · simp only [store_if_different, is_different, if_pos h]
  · have key : (store_if_different storage t against fs).1 =
        (storage.store { t with pos := 0 } fs).1.map
          (fun r => (r.map some).mapError .storeNoteError) ∧
      (store_if_different storage t against fs).2 =
        (storage.store { t with pos := 0 } fs).2 := by
      simp only [store_if_different, is_different, if_neg h]
      cases hres : storage.store { t with pos := 0 } fs with
      | mk r rest =>
        obtain ⟨fs', log⟩ := rest
        cases r with
        | none => simp
        | some e => cases e <;> simp [Except.map, Except.mapError]
    refine ⟨fun heq => absurd heq.symm h, fun _ => key, ?_, fun heq => absurd heq.symm h⟩
    intro habs
    rw [key.1] at habs
    exfalso
    cases hr : (storage.store { t with pos := 0 } fs).1 with
    | none => rw [hr] at habs; simp at habs
    | some e =>
      rw [hr] at habs
      cases e with
      | ok p => simp [Except.map, Except.mapError] at habs
      | error e => simp [Except.map, Except.mapError] at habs

/-- Witness for C5: a one-byte difference against the baseline commits the
staged bytes; the gate's result is the strategy result mapped to `Some`. -/
theorem store_if_different_gate_witness :
    (store_if_different (.storeNoteAt ⟨["notes".data, "new.ext".data]⟩)
        ⟨["tmp".data], "hellp".data, 0⟩ "hello".data []).1 =
      ((StoreStrategy.storeNoteAt ⟨["notes".data, "new.ext".data]⟩).store
          ⟨["tmp".data], "hellp".data, 0⟩ []).1.map
        (fun r => (r.map some).mapError .storeNoteError) :=
  ((store_if_different_gate (.storeNoteAt ⟨["notes".data, "new.ext".data]⟩)
    ⟨["tmp".data], "hellp".data, 0⟩ "hello".data []).2.1 (by decide)).1

/-! ## Claim C1 -/

/-- C1: for every commit-strategy invocation (`StoreAt` or `StoreIn`, the
closed set of `StoreNote` implementations) and every filesystem state, the
contents of every pre-existing file — in particular a file at any candidate
target path — are unchanged by the store: collisions only ever produce a
fresh candidate (StoreIn) or a hard failure, never an overwrite. -/
theorem commit_strategies_never_overwrite (strategy : StoreStrategy) (t : TempFileHandle)
    (fs : FS) (p : FsPath) (c : Chars) (h : fsGet fs p = some c) :
    fsGet (strategy.store t fs).2.1 p = some c := by
  cases strategy with
  | storeNoteAt s =>
    have hp := storeAt_preserves s t fs p c h
    simp only [StoreStrategy.store]
    cases hst : s.do_store t fs with
    | mk r rest =>
      obtain ⟨fs', log⟩ := rest
      rw [hst] at hp
      cases r <;> simpa using hp
  | storeNoteIn s =>
    have hp := storeIn_preserves s t fs p c h
    simp only [StoreStrategy.store]
    cases hst : s.do_store t fs with
    | mk r rest =>
      obtain ⟨fs', log⟩ := rest
      rw [hst] at hp
      cases r with
      | none => simpa using hp
      | some e => cases e <;> simpa using hp

/-- Witness for C1 at a concrete filesystem: storing into a directory that
already holds `stem.ext` leaves that file's contents `['a']` unchanged. -/
theorem commit_strategies_never_overwrite_witness :
    fsGet [(["notes".data, "stem.ext".data], "a".data)] ["notes".data, "stem.ext".data] =
      some "a".data ∧
    fsGet ((StoreStrategy.storeNoteIn ⟨["notes".data], "stem".data, "ext".data⟩).store
        ⟨["tmp".data], "hello".data, 0⟩
        [(["notes".data, "stem.ext".data], "a".data)]).2.1
      ["notes".data, "stem.ext".data] = some "a".data :=
  ⟨by decide,
   commit_strategies_never_overwrite (.storeNoteIn ⟨["notes".data], "stem".data, "ext".data⟩)
     ⟨["tmp".data], "hello".data, 0⟩ _ _ _ (by decide)⟩

/-! ## Claim C4 -/

/-- C4: `StoreNoteAt::do_store` into an occupied destination fails
immediately — no retry, no alternate name — with the copy error that wraps
the `AlreadyExists` I/O failure (the code's representation of the spec's
`NoteClobberPrevented`), after first invoking preservation-on-failure (the
single `.preserved` event on the staged file). The filesystem is returned
unchanged, so both the original destination file and the staged content at
its rescued location (the kept temp path) are intact. -/
theorem storeAt_collision_fails_immediately_preserving (s : StoreNoteAt)
    (t : TempFileHandle) (fs : FS) (c : Chars)
    (hdest : fsGet fs s.destination = some c)
    (hstaged : fsGet fs t.path = some t.contents) :
    s.do_store t fs =
      (.error (.copyError t.path s.destination .alreadyExists), fs, [.preserved t.path]) ∧
    fsGet (s.do_store t fs).2.1 s.destination = some c ∧
    fsGet (s.do_store t fs).2.1 t.path = some t.contents := by
  have heq : s.do_store t fs =
      (.error (.copyError t.path s.destination .alreadyExists), fs, [.preserved t.path]) := by
    simp only [StoreNoteAt.do_store, copy_to_destination, hdest, try_preserve_note,
      CopyToDestinationError.kind]
  exact ⟨heq, by rw [heq]; exact hdest, by rw [heq]; exact hstaged⟩

/-- Witness for C4: concrete collision at `notes/stem.ext`. -/
theorem storeAt_collision_fails_immediately_preserving_witness :
    StoreNoteAt.do_store ⟨["notes".data, "stem.ext".data]⟩
        ⟨["tmp".data], "hello".data, 0⟩
        [(["notes".data, "stem.ext".data], "a".data),
         (["tmp".data], "hello".data)] =
      (.error (.copyError ["tmp".data] ["notes".data, "stem.ext".data] .alreadyExists),
       [(["notes".data, "stem.ext".data], "a".data), (["tmp".data], "hello".data)],
       [.preserved ["tmp".data]]) :=
  (storeAt_collision_fails_immediately_preserving ⟨["notes".data, "stem.ext".data]⟩
    ⟨["tmp".data], "hello".data, 0⟩
    [(["notes".data, "stem.ext".data], "a".data), (["tmp".data], "hello".data)]
    "a".data (by decide) (by decide)).1

/-! ## The collision scan: characterisation lemmas -/

theorem isPrefixOf_append_self (l1 l2 : Chars) : l1.isPrefixOf (l1 ++ l2) = true :=
  List.isPrefixOf_iff_prefix.mpr (List.prefix_append l1 l2)

theorem isPrefixOf_self (l : Chars) : l.isPrefixOf l = true :=
  List.isPrefixOf_iff_prefix.mpr (List.prefix_refl l)

theorem capturesValue_of_tryMatchAt {stem ext name ds : Chars}
    (h : tryMatchAt stem ext name = some ds) : capturesValue stem ext name = some ds := by
  cases name with
  | nil => simpa [capturesValue] using h
  | cons c tl => simp [capturesValue, h]

/-- An ASCII digit is in particular a Unicode `Nd` digit (the first range of
the table). -/
theorem isUnicodeDigit_of_isDigit {c : Char} (h : c.isDigit = true) :
    isUnicodeDigit c = true := by
  simp only [Char.isDigit, ge_iff_le, Bool.and_eq_true, decide_eq_true_eq] at h
  unfold isUnicodeDigit
  refine List.any_eq_true.mpr ⟨(48, 57), by decide, ?_⟩
  simp only [Bool.and_eq_true, decide_eq_true_eq]
  exact h

/-- The pattern run on a name of the very shape the scan generates captures
exactly its digit block. -/
theorem tryMatchAt_generated (st ex : Chars) (m : Nat) :
    tryMatchAt st ex (st ++ '-' :: (natDecimal m ++ '.' :: ex)) = some (natDecimal m) := by
  have hpre := isPrefixOf_append_self st ('-' :: (natDecimal m ++ '.' :: ex))
  simp only [tryMatchAt, hpre, if_true, List.drop_left]
  have htake : (natDecimal m ++ '.' :: ex).takeWhile isUnicodeDigit = natDecimal m :=
    takeWhile_append_of_all
      (fun c hc => isUnicodeDigit_of_isDigit (natDecimal_all_digit m c hc)) (by decide)
  simp only [htake]
  have hne : (natDecimal m).isEmpty = false := by
    cases hmm : natDecimal m with
    | nil => exact absurd hmm (natDecimal_ne_nil m)
    | cons a l => rfl
  simp only [hne, Bool.false_eq_true, if_false]
  have hlen : (natDecimal m).length = ((natDecimal m).length - 1) + 1 := by
    have := natDecimal_ne_nil m
    have : 0 < (natDecimal m).length := List.length_pos.mpr this
    omega
  rw [hlen]
  simp only [greedyCapture, ← hlen, List.drop_left]
  simp [isPrefixOf_self, List.take_length]

theorem capturesValue_generated (st ex : Chars) (m : Nat) :
    capturesValue st ex (st ++ '-' :: (natDecimal m ++ '.' :: ex)) = some (natDecimal m) :=
  capturesValue_of_tryMatchAt (tryMatchAt_generated st ex m)

theorem parseAllU32_eq_some {l : List Chars} {ns : List Nat} :
    parseAllU32 l = some ns ↔
      ns = l.map foldDigits ∧
        ∀ ds ∈ l, ds.all Char.isDigit = true ∧ foldDigits ds < 4294967296 := by
  induction l generalizing ns with
  | nil => simp [parseAllU32]
  | cons ds rest ih =>
    simp only [parseAllU32, parseU32]
    constructor
    · intro h
      split at h
      · rename_i n ns' hn hns
        simp only [Option.some.injEq] at h
        subst h
        split at hn
        · rename_i hascii
          split at hn
          · rename_i hlt
            simp only [Option.some.injEq] at hn
            obtain ⟨h1, h2⟩ := ih.mp hns
            subst hn h1
            refine ⟨by simp, ?_⟩
            intro x hx
            rcases List.mem_cons.mp hx with hx | hx
            · subst hx; exact ⟨hascii, hlt⟩
            · exact h2 x hx
          · exact absurd hn (by simp)
        · exact absurd hn (by simp)
      · rename_i hbad
        exact absurd h (by simp)
    · rintro ⟨h1, h2⟩
      subst h1
      obtain ⟨hda, hdlt⟩ := h2 ds (by simp)
      have hrest : parseAllU32 rest = some (rest.map foldDigits) :=
        ih.mpr ⟨rfl, fun x hx => h2 x (by simp [hx])⟩
      simp [hda, hdlt, hrest]

theorem le_foldl_max_init (ns : List Nat) : ∀ a b : Nat, a ≤ b → a ≤ ns.foldl max b := by
  induction ns with
  | nil => intro a b h; simpa using h
  | cons n rest ih =>
    intro a b h
    simp only [List.foldl_cons]
    exact ih a (max b n) (le_trans h (le_max_left b n))

theorem mem_le_foldl_max {x : Nat} {ns : List Nat} (h : x ∈ ns) :
    ∀ a : Nat, x ≤ ns.foldl max a := by
  induction ns with
  | nil => simp at h
  | cons n rest ih =>
    intro a
    simp only [List.foldl_cons]
    rcases List.mem_cons.mp h with h1 | h1
    · subst h1
      exact le_foldl_max_init rest x (max a x) (le_max_right a x)
    · exact ih h1 (max a n)

/-- Freshness of the generated candidate: if every captured suffix in `dir`
parses (values `ns`) and the next suffix still fits `u32`, then no file named
`stem-<max+1>.ext` can exist in `dir` — its own capture would exceed the
maximum. -/
theorem generated_candidate_fresh {fs : FS} {dir : FsPath} {st ex : Chars} {ns : List Nat}
    (hnums : parseAllU32 ((dirListing fs dir).filterMap (capturesValue st ex)) = some ns) :
    fsGet fs (dir ++ [st ++ '-' :: (natDecimal (ns.foldl max 0 + 1) ++ '.' :: ex)]) =
      none := by
  set b := st ++ '-' :: (natDecimal (ns.foldl max 0 + 1) ++ '.' :: ex) with hb
  cases hget : fsGet fs (dir ++ [b]) with
  | none => rfl
  | some x =>
    exfalso
    have hmem : b ∈ dirListing fs dir := mem_dirListing_of_fsGet hget
    have hcap : capturesValue st ex b = some (natDecimal (ns.foldl max 0 + 1)) := by
      rw [hb]; exact capturesValue_generated st ex _
    have hmem2 : natDecimal (ns.foldl max 0 + 1) ∈
        (dirListing fs dir).filterMap (capturesValue st ex) :=
      List.mem_filterMap.mpr ⟨b, hmem, hcap⟩
    obtain ⟨hns, hbound⟩ := parseAllU32_eq_some.mp hnums
    have hin' : foldDigits (natDecimal (ns.foldl max 0 + 1)) ∈
        ((dirListing fs dir).filterMap (capturesValue st ex)).map foldDigits :=
      List.mem_map.mpr ⟨_, hmem2, rfl⟩
    rw [← hns] at hin'
    have hin := hin'
    rw [foldDigits_natDecimal] at hin
    have := mem_le_foldl_max hin 0
    omega

/-- A name without a dot splits to itself with no extension. -/
theorem splitAtLastDot_no_dot {name : Chars} (hne : name ≠ []) (hdot : '.' ∉ name) :
    splitAtLastDot name = some (name, none) := by
  have hemp : name.isEmpty = false := by
    cases name with
    | nil => exact absurd rfl hne
    | cons a l => rfl
  have htake : name.reverse.takeWhile (fun c => c != '.') = name.reverse := by
    refine List.takeWhile_eq_self_iff.mpr ?_
    intro c hc
    have : c ∈ name := List.mem_reverse.mp hc
    have : c ≠ '.' := fun h => hdot (h ▸ this)
    simpa using this
  simp [splitAtLastDot, hemp, htake]

/-- Splitting `stem ++ "." ++ ext` for a dotless stem and dotless nonempty
extension recovers exactly the stem and extension. -/
theorem splitAtLastDot_clean {stem ext : Chars} (hs : stem ≠ []) (hsd : '.' ∉ stem)
    (hed : '.' ∉ ext) : splitAtLastDot (stem ++ '.' :: ext) = some (stem, some ext) := by
  have hemp : (stem ++ '.' :: ext).isEmpty = false := by
    cases stem with
    | nil => exact absurd rfl hs
    | cons a l => rfl
  have hrev : (stem ++ '.' :: ext).reverse = ext.reverse ++ '.' :: stem.reverse := by
    simp
  have htake : (ext.reverse ++ '.' :: stem.reverse).takeWhile (fun c => c != '.') =
      ext.reverse := by
    refine takeWhile_append_of_all ?_ (by decide)
    intro c hc
    have : c ∈ ext := List.mem_reverse.mp hc
    have : c ≠ '.' := fun h => hed (h ▸ this)
    simpa using this
  have hlens : (ext.reverse).length = ext.length := List.length_reverse ext
  have hlen2 : (stem ++ '.' :: ext).length = stem.length + (ext.length + 1) := by
    simp
  have hslen : 0 < stem.length := List.length_pos.mpr hs
  have hneq : ¬ ((ext.reverse).length = (stem ++ '.' :: ext).length) := by
    rw [hlens, hlen2]; omega
  have harith : (stem ++ '.' :: ext).length - (ext.reverse).length - 1 = stem.length := by
    rw [hlens, hlen2]; omega
  have htk : (stem ++ '.' :: ext).take stem.length = stem := List.take_left stem _
  have hstemp : stem.isEmpty = false := by
    cases stem with
    | nil => exact absurd rfl hs
    | cons a l => rfl
  simp only [splitAtLastDot, hemp, Bool.false_eq_true, if_false, hrev, htake, hneq,
    harith, htk, hstemp, List.reverse_reverse]

/-- `with_extension` on a dotless stem appends `"." ++ ext`. -/
theorem withExtension_clean {stem ext : Chars} (hs : stem ≠ []) (hsd : '.' ∉ stem)
    (he : ext ≠ []) : withExtension stem ext = stem ++ '.' :: ext := by
  have hemp : ext.isEmpty = false := by
    cases ext with
    | nil => exact absurd rfl he
    | cons a l => rfl
  simp [withExtension, splitAtLastDot_no_dot hs hsd, hemp]

/-! ## Claim C3 -/

/-- C3: when `StoreNoteIn` finds `dir/stem.ext` occupied, it emits the
collision warning and retries at `dir/stem-<M+1>.ext`, where `M` is the
largest suffix captured by the case-sensitive regex scan of the directory
(`M = 0` when nothing matches, so the first alternative uses suffix 1). The
retry target is provably absent from the directory, the note lands there,
and every pre-existing file keeps its contents. Hypotheses: stem and
extension are nonempty and dotless (so `with_extension` and the
stem/extension re-derivation from the colliding path are exact), every
captured suffix survives `str::parse::<u32>` — an ASCII-digit run whose
value fits `u32`; a matching non-ASCII `\d` digit or an overflow would
instead panic, the states C10 delimits — with values `ns`, and the
successor suffix still fits `u32`. -/
theorem storeIn_collision_retries_at_next_suffix
    (s : StoreNoteIn) (t : TempFileHandle) (fs : FS) (c : Chars) (ns : List Nat)
    (hs : s.preferred_file_stem ≠ []) (hsd : '.' ∉ s.preferred_file_stem)
    (he : s.file_extension ≠ []) (hed : '.' ∉ s.file_extension)
    (hcol : fsGet fs
      (s.storage_directory ++ [s.preferred_file_stem ++ '.' :: s.file_extension]) = some c)
    (hnums : parseAllU32 ((dirListing fs s.storage_directory).filterMap
      (capturesValue s.preferred_file_stem s.file_extension)) = some ns)
    (hM : ns.foldl max 0 + 1 < 4294967296) :
    fsGet fs (s.storage_directory ++
      [s.preferred_file_stem ++ '-' ::
        (natDecimal (ns.foldl max 0 + 1) ++ '.' :: s.file_extension)]) = none ∧
    s.do_store t fs =
      (some (.ok (s.storage_directory ++
        [s.preferred_file_stem ++ '-' ::
          (natDecimal (ns.foldl max 0 + 1) ++ '.' :: s.file_extension)])),
       (s.storage_directory ++
         [s.preferred_file_stem ++ '-' ::
           (natDecimal (ns.foldl max 0 + 1) ++ '.' :: s.file_extension)],
        t.remaining) :: fs,
       [.warnedExists (s.storage_directory ++
         [s.preferred_file_stem ++ '.' :: s.file_extension])]) ∧
    (∀ p c', fsGet fs p = some c' → fsGet (s.do_store t fs).2.1 p = some c') := by
  have hfresh :=
    @generated_candidate_fresh fs s.storage_directory s.preferred_file_stem
      s.file_extension ns hnums
  refine ⟨hfresh, ?_, fun p c' hp => storeIn_preserves s t fs p c' hp⟩
  have hwe : withExtension s.preferred_file_stem s.file_extension =
      s.preferred_file_stem ++ '.' :: s.file_extension := withExtension_clean hs hsd he
  have hgen : generate_unclobbered_destination fs
      (s.storage_directory ++ [s.preferred_file_stem ++ '.' :: s.file_extension]) =
      some (s.storage_directory ++
        [s.preferred_file_stem ++ '-' ::
          (natDecimal (ns.foldl max 0 + 1) ++ '.' :: s.file_extension)]) := by
    simp only [generate_unclobbered_destination, List.getLast?_concat, List.dropLast_concat,
      splitAtLastDot_clean hs hsd hed, find_next_destination_basename, hnums,
      Nat.mod_eq_of_lt hM, List.cons_append, List.append_assoc]
  have h2 : fs.length + 2 = (fs.length + 1) + 1 := rfl
  simp only [StoreNoteIn.do_store, hwe, h2, do_store_loop, copy_to_destination, hcol,
    CopyToDestinationError.is_destination_exists, if_true, hgen, hfresh, List.nil_append,
    List.cons_append, List.append_assoc]

/-- Witness for C3: the spec's pre-seeded scenario. With `stem.ext` and
`stem-1.ext` through `stem-3.ext` present, the note lands at `stem-4.ext`
and the filesystem keeps every pre-existing file in front of it. -/
theorem storeIn_collision_retries_at_next_suffix_witness :
    StoreNoteIn.do_store ⟨["notes".data], "stem".data, "ext".data⟩
        ⟨["tmp".data], "hello".data, 0⟩
        [(["notes".data, "stem.ext".data], "a".data),
         (["notes".data, "stem-1.ext".data], "b".data),
         (["notes".data, "stem-2.ext".data], "c".data),
         (["notes".data, "stem-3.ext".data], "d".data)] =
      (some (.ok ["notes".data, "stem-4.ext".data]),
       [(["notes".data, "stem-4.ext".data], "hello".data),
        (["notes".data, "stem.ext".data], "a".data),
        (["notes".data, "stem-1.ext".data], "b".data),
        (["notes".data, "stem-2.ext".data], "c".data),
        (["notes".data, "stem-3.ext".data], "d".data)],
       [.warnedExists ["notes".data, "stem.ext".data]]) := by
  rw [(storeIn_collision_retries_at_next_suffix
    ⟨["notes".data], "stem".data, "ext".data⟩ ⟨["tmp".data], "hello".data, 0⟩
    [(["notes".data, "stem.ext".data], "a".data),
     (["notes".data, "stem-1.ext".data], "b".data),
     (["notes".data, "stem-2.ext".data], "c".data),
     (["notes".data, "stem-3.ext".data], "d".data)]
    "a".data [1, 2, 3] (by decide) (by decide) (by decide) (by decide) (by decide)
    (by decide) (by decide)).2.1]
  rfl

/-! ## Claim C10 -/

/-- C10 counterexample: the claim asserts `find_next_destination_basename`
never panics, in particular that parsing any captured suffix into `u32`
always succeeds. Two refutations, one per way `str::parse::<u32>` can
reject a capture. A directory entry `stem-4294967296.ext` matches the
collision regex but its captured suffix overflows `u32`; and
`stem-٣.ext` (U+0663, ARABIC-INDIC DIGIT THREE) matches the crate's
Unicode-aware `\d` with captured value 3, which `parse::<u32>` — ASCII
only — also rejects. Either way the
`expect("pattern must guarantee we have a number")` panics — the model's
`none` outcome — instead of producing `Ok` or a `ReadDirError`. -/
theorem find_next_basename_panics_on_unparseable_suffix :
    find_next_destination_basename
      [(["notes".data, "stem-4294967296.ext".data], "x".data)]
      ["notes".data] "stem".data "ext".data = none ∧
    find_next_destination_basename
      [(["notes".data, "stem-٣.ext".data], "x".data)]
      ["notes".data] "stem".data "ext".data = none := by
  refine ⟨by decide, by decide⟩

/-- C10 amended: for every directory state in which each matching entry's
captured suffix is a run of ASCII digits whose value fits in `u32` (the
exact acceptance domain of `str::parse::<u32>`; in particular whenever
suffixes are ASCII with at most nine digits),
`find_next_destination_basename` is total and returns a basename of the
form `stem-<M+1>.ext`, where `M` is the largest captured suffix (`0` if
none) and the successor is taken with `u32` wrap-around. Outside that
domain — an overflowing suffix or a captured non-ASCII `\d` digit — the
`expect` panics, as the counterexample shows for both. -/
theorem find_next_basename_total_for_u32_suffixes (fs : FS) (dir : FsPath)
    (stem ext : Chars)
    (hcap : ∀ name ∈ dirListing fs dir,
      Option.all (fun ds => ds.all Char.isDigit && decide (foldDigits ds < 4294967296))
        (capturesValue stem ext name) = true) :
    ∃ ns, parseAllU32 ((dirListing fs dir).filterMap (capturesValue stem ext)) = some ns ∧
      find_next_destination_basename fs dir stem ext =
        some (stem ++ '-' :: (natDecimal ((ns.foldl max 0 + 1) % 4294967296) ++ '.' :: ext)) := by
  have hsome : parseAllU32 ((dirListing fs dir).filterMap (capturesValue stem ext)) =
      some (((dirListing fs dir).filterMap (capturesValue stem ext)).map foldDigits) := by
    apply parseAllU32_eq_some.mpr
    refine ⟨rfl, ?_⟩
    intro ds hds
    obtain ⟨name, hn, hcapn⟩ := List.mem_filterMap.mp hds
    have := hcap name hn
    rw [hcapn] at this
    simpa using this
  refine ⟨_, hsome, ?_⟩
  simp only [find_next_destination_basename, hsome, List.cons_append, List.append_assoc]

/-- Witness for the amended C10 at a directory containing `stem-1.ext`: the
scan returns `stem-2.ext`. -/
theorem find_next_basename_total_for_u32_suffixes_witness :
    find_next_destination_basename [(["notes".data, "stem-1.ext".data], "b".data)]
      ["notes".data] "stem".data "ext".data = some "stem-2.ext".data := by
  obtain ⟨ns, h1, h2⟩ := find_next_basename_total_for_u32_suffixes
    [(["notes".data, "stem-1.ext".data], "b".data)] ["notes".data] "stem".data "ext".data
    (by decide)
  have e : parseAllU32 ((dirListing [(["notes".data, "stem-1.ext".data], "b".data)]
      ["notes".data]).filterMap (capturesValue "stem".data "ext".data)) = some [1] := by
    decide
  rw [e] at h1
  have hns : ns = [1] := by
    cases h1
    rfl
  subst hns
  rw [h2]
  decide

/-! ## Preamble codec (note.rs)

`Preamble` holds a title and a `chrono::DateTime<FixedOffset>`, modelled by
its observable components. `Preamble::serialize` goes through
`toml::to_string_pretty` with a custom datetime serializer (`toml_datetime`);
`extract_preamble` reads the fenced block line by line and then parses it
with `toml::from_str` and the custom `deserialize_datetime`. The third-party
TOML text layer is modelled: for string values the model covers strings that
need no TOML escaping (the double-quoted rendering pinned by the repo's own
serialization test); the datetime rendering and parsing model the
`toml_datetime` crate's `Display` and RFC-3339 grammar. -/

/-- Observable components of a `chrono::DateTime<FixedOffset>`. -/
structure CDateTime where
  year : Int
  month : Nat
  day : Nat
  hour : Nat
  minute : Nat
  second : Nat
  nanosecond : Nat
  offsetSeconds : Int
deriving DecidableEq, Repr

/-- Proleptic-Gregorian leap year, as chrono computes it. -/
def isLeapYear (y : Int) : Bool := y % 4 = 0 && (y % 100 != 0 || y % 400 = 0)

def daysInMonth (y : Int) (m : Nat) : Nat :=
  match m with
  | 1 | 3 | 5 | 7 | 8 | 10 | 12 => 31
  | 4 | 6 | 9 | 11 => 30
  | 2 => if isLeapYear y then 29 else 28
  | _ => 0

/-- The invariants chrono maintains for a `DateTime<FixedOffset>`: a real
calendar date, in-range time-of-day (nanoseconds may reach the leap-second
range), and an offset strictly between ±24h. -/
def CDateTime.valid (d : CDateTime) : Prop :=
  1 ≤ d.month ∧ d.month ≤ 12 ∧ 1 ≤ d.day ∧ d.day ≤ daysInMonth d.year d.month ∧
  d.hour < 24 ∧ d.minute < 60 ∧ d.second < 60 ∧ d.nanosecond < 2000000000 ∧
  -86400 < d.offsetSeconds ∧ d.offsetSeconds < 86400

instance (d : CDateTime) : Decidable d.valid := by
  unfold CDateTime.valid
  infer_instance

/-- The note preamble: title plus creation timestamp. -/
structure Preamble where
  title : Chars
  created_at : CDateTime
deriving DecidableEq, Repr

/-- `toml::value::Date` (`u16` year, `u8` month and day). -/
structure TomlDate where
  year : Nat
  month : Nat
  day : Nat
deriving DecidableEq, Repr

/-- `toml::value::Time` (`u8` fields, `u32` nanosecond). -/
structure TomlTime where
  hour : Nat
  minute : Nat
  second : Nat
  nanosecond : Nat
deriving DecidableEq, Repr

/-- `toml::value::Offset` (`Z` or custom minutes, an `i16`). -/
inductive TomlOffset
  | z
  | custom (minutes : Int)
deriving DecidableEq, Repr

/-- `toml::value::Datetime`: every component optional. -/
structure TomlDatetime where
  date : Option TomlDate
  time : Option TomlTime
  offset : Option TomlOffset
deriving DecidableEq, Repr

/-- `toml_datetime` from note.rs: converts the chrono datetime into a TOML
datetime, checking each field's machine-integer range. The offset check is
the code's actual (buggy relative to the spec) behaviour: the offset in
SECONDS is converted into an `i16` first and only then divided by 60
(Rust `i16` division truncates toward zero, hence `Int.tdiv`), so any real
offset beyond ±32767 seconds (±9:06:07) is rejected with the (misworded)
"utc offset must fit into a u16" error. -/
def toml_datetime (d : CDateTime) : Except Chars TomlDatetime :=
  if d.offsetSeconds < -32768 ∨ 32767 < d.offsetSeconds then
    .error "utc offset must fit into a u16".data
  else
    let offsetMinutes := Int.tdiv d.offsetSeconds 60
    if d.year < 0 ∨ 65535 < d.year then .error "year must fit into a u16".data
    else if 255 < d.month then .error "month must fit into a u8".data
    else if 255 < d.day then .error "day must fit into a u8".data
    else if 255 < d.hour then .error "hour must fit into a u8".data
    else if 255 < d.minute then .error "minute must fit into a u8".data
    else if 255 < d.second then .error "second must fit into a u8".data
    else
      .ok ⟨some ⟨d.year.toNat, d.month, d.day⟩,
        some ⟨d.hour, d.minute, d.second, d.nanosecond⟩,
        some (.custom offsetMinutes)⟩

/-- Zero-padded decimal of width `w` (`{:0w}` in Rust: never truncates). -/
def padZeros (w n : Nat) : Chars :=
  List.replicate (w - (natDecimal n).length) '0' ++ natDecimal n

/-- Strip trailing `'0'`s (`str::trim_end_matches('0')`). -/
def trimTrailingZeros (l : Chars) : Chars := (l.reverse.dropWhile (fun c => c == '0')).reverse

/-- The fractional-seconds rendering of `toml_datetime`'s `Display`: nothing
for zero nanoseconds, otherwise a dot plus the 9-digit zero-padded value with
trailing zeros trimmed. -/
def displayFraction (nano : Nat) : Chars :=
  if nano = 0 then [] else '.' :: trimTrailingZeros (padZeros 9 nano)

/-- `toml_datetime`'s `Display` for an offset. -/
def displayTomlOffset : TomlOffset → Chars
  | .z => ['Z']
  | .custom m =>
    let sign := if m < 0 then '-' else '+'
    let a := m.natAbs
    sign :: (padZeros 2 (a / 60) ++ ':' :: padZeros 2 (a % 60))

def displayDatePart : Option TomlDate → Chars
  | some d => padZeros 4 d.year ++ '-' :: (padZeros 2 d.month ++ '-' :: padZeros 2 d.day)
  | none => []

def displayTimePart : Option TomlTime → Chars
  | some t => 'T' :: (padZeros 2 t.hour ++ ':' :: (padZeros 2 t.minute ++ ':' ::
      (padZeros 2 t.second ++ displayFraction t.nanosecond)))
  | none => []

def displayOffsetPart : Option TomlOffset → Chars
  | some o => displayTomlOffset o
  | none => []

/-- `toml_datetime`'s `Display` for a full datetime value. -/
def displayTomlDatetime (td : TomlDatetime) : Chars :=
  displayDatePart td.date ++ displayTimePart td.time ++ displayOffsetPart td.offset

/-- A character a TOML basic string can carry verbatim: not a quote, not a
backslash, not a control character. -/
def PlainChar (c : Char) : Prop := c ≠ '"' ∧ c ≠ '\\' ∧ 32 ≤ c.toNat ∧ c.toNat ≠ 127

instance (c : Char) : Decidable (PlainChar c) := by
  unfold PlainChar
  infer_instance

/-- `toml::to_string_pretty`'s rendering of a string value, modelled on its
escape-free domain: for a string of `PlainChar`s the pretty encoder emits the
double-quoted content verbatim (pinned by the repo's
`can_serialize_preamble_as_toml` test). Strings that need escaping render
differently (escaped, literal or multiline forms) and are outside the
theorems below, which restrict titles to `PlainChar`s. -/
def encodeTomlString (s : Chars) : Chars := '"' :: (s ++ ['"'])

/-- `Preamble::serialize`: `toml::to_string_pretty` of the two fields in
declaration order (`title`, then `created_at`), trimmed of the trailing
newline and wrapped in `---` fences. -/
def Preamble.serialize (p : Preamble) : Except Chars Chars :=
  match toml_datetime p.created_at with
  | .error e => .error e
  | .ok td =>
    .ok ("---\n".data ++ ("title = ".data ++ encodeTomlString p.title ++ '\n' ::
      ("created_at = ".data ++ displayTomlDatetime td ++ "\n---".data)))

/-! ### extract_preamble: the line reader -/

inductive InvalidPreambleError
  | unterminatedFence
  | malformedFence (line : Chars)
  | deserializeError
deriving DecidableEq, Repr

/-- `BufRead::read_line` accumulator: returns the line including its
terminating newline (if present) and the remaining input. -/
def readLineGo (acc : Chars) : Chars → Chars × Chars
  | [] => (acc.reverse, [])
  | c :: tl => if c = '\n' then ((c :: acc).reverse, tl) else readLineGo (c :: acc) tl

def readLine (s : Chars) : Chars × Chars := readLineGo [] s

/-- `ensure_preamble_fence`: the first line must be exactly `---\n`. -/
def ensure_preamble_fence (s : Chars) : Except InvalidPreambleError Chars :=
  let r := readLine s
  if r.1 = "---\n".data then .ok r.2 else .error (.malformedFence r.1)

/-- `read_until_closing_fence`'s loop. End of input (a 0-byte read) is an
unterminated fence; a bare `---` or `---\n` line closes the block; other
lines accumulate. The fuel only forces structural termination: each
iteration consumes at least one character, so `s.length + 1` never runs
out. -/
def readUntilGo : Chars → Chars → Nat → Except InvalidPreambleError Chars
  | _, _, 0 => .error .unterminatedFence
  | _, [], _ + 1 => .error .unterminatedFence
  | acc, c :: tl, fuel + 1 =>
    let r := readLine (c :: tl)
    if r.1 = "---".data ∨ r.1 = "---\n".data then .ok acc
    else readUntilGo (acc ++ r.1) r.2 fuel

def read_until_closing_fence (s : Chars) : Except InvalidPreambleError Chars :=
  readUntilGo [] s (s.length + 1)

/-! ### The TOML layer of extract_preamble -/

/-- Split on newlines (none kept). -/
def splitLinesGo (cur : Chars) : Chars → List Chars
  | [] => [cur.reverse]
  | c :: tl => if c = '\n' then cur.reverse :: splitLinesGo [] tl else splitLinesGo (c :: cur) tl

def splitLines (s : Chars) : List Chars := splitLinesGo [] s

/-- Parse exactly `k` leading digits. -/
def parseNDigits (k : Nat) (s : Chars) : Option (Nat × Chars) :=
  let ds := s.take k
  if ds.length = k ∧ ds.all Char.isDigit then some (foldDigits ds, s.drop k) else none

def expectChar (c : Char) : Chars → Option Chars
  | x :: rest => if x = c then some rest else none
  | [] => none

def parseTomlDate (s : Chars) : Option (TomlDate × Chars) := do
  let (y, s) ← parseNDigits 4 s
  let s ← expectChar '-' s
  let (mo, s) ← parseNDigits 2 s
  let s ← expectChar '-' s
  let (d, s) ← parseNDigits 2 s
  pure (⟨y, mo, d⟩, s)

/-- Fractional seconds: a dot and at least one digit; at most nine digits
are significant and the value is scaled to nanoseconds. -/
def parseFraction (s : Chars) : Option (Nat × Chars) :=
  match s with
  | '.' :: rest =>
    let ds := rest.takeWhile Char.isDigit
    if ds.isEmpty then none
    else
      let ds9 := ds.take 9
      some (foldDigits ds9 * 10 ^ (9 - ds9.length), rest.drop ds.length)
  | _ => none

def parseTomlTime (s : Chars) : Option (TomlTime × Chars) := do
  let (h, s) ← parseNDigits 2 s
  let s ← expectChar ':' s
  let (mi, s) ← parseNDigits 2 s
  let s ← expectChar ':' s
  let (se, s) ← parseNDigits 2 s
  match s with
  | '.' :: _ => do
    let (ns, s) ← parseFraction s
    pure (⟨h, mi, se, ns⟩, s)
  | _ => pure (⟨h, mi, se, 0⟩, s)

def parseTomlOffset (s : Chars) : Option (TomlOffset × Chars) :=
  match s with
  | 'Z' :: rest => some (.z, rest)
  | 'z' :: rest => some (.z, rest)
  | '+' :: rest =>
    (do
      let (hh, s) ← parseNDigits 2 rest
      let s ← expectChar ':' s
      let (mm, s) ← parseNDigits 2 s
      pure (TomlOffset.custom ((hh * 60 + mm : Nat) : Int), s))
  | '-' :: rest =>
    (do
      let (hh, s) ← parseNDigits 2 rest
      let s ← expectChar ':' s
      let (mm, s) ← parseNDigits 2 s
      pure (TomlOffset.custom (-((hh * 60 + mm : Nat) : Int)), s))
  | _ => none

/-- The RFC-3339-style datetime grammar of TOML values: a date, optionally
followed by a `T`/`t`/space separator, a time, and an offset; the whole
input must be consumed. Calendar-range validation is left to the chrono
layer below, which rejects the same values the TOML parser would. -/
def parseTomlDatetimeValue (s : Chars) : Option TomlDatetime := do
  let (date, s) ← parseTomlDate s
  match s with
  | [] => pure ⟨some date, none, none⟩
  | sep :: rest =>
    if sep = 'T' ∨ sep = 't' ∨ sep = ' ' then do
      let (time, s) ← parseTomlTime rest
      match s with
      | [] => pure ⟨some date, some time, none⟩
      | _ => do
        let (off, s) ← parseTomlOffset s
        match s with
        | [] => pure ⟨some date, some time, some off⟩
        | _ => none
    else none

/-- TOML basic string value on the escape-free domain: an opening quote,
verbatim content up to the closing quote, nothing after. -/
def parseBasicString (s : Chars) : Option Chars :=
  match s with
  | '"' :: rest =>
    let content := rest.takeWhile (fun c => c != '"')
    match rest.drop content.length with
    | ['"'] => some content
    | _ => none
  | _ => none

def trimTrailingSpaces (l : Chars) : Chars := (l.reverse.dropWhile (fun c => c == ' ')).reverse

/-- One `key = value` line: the key is everything before the first `=`
(trailing spaces trimmed), the value the remainder with leading spaces
dropped. -/
def parseKeyValueLine (line : Chars) : Option (Chars × Chars) :=
  let key := line.takeWhile (fun c => c != '=')
  let rest := line.dropWhile (fun c => c != '=')
  match rest with
  | '=' :: valuePart =>
    some (trimTrailingSpaces key, valuePart.dropWhile (fun c => c == ' '))
  | _ => none

def linesToKvs : List Chars → Option (List (Chars × Chars))
  | [] => some []
  | l :: rest =>
    match parseKeyValueLine l, linesToKvs rest with
    | some kv, some kvs => some (kv :: kvs)
    | _, _ => none

def lookupKey (kvs : List (Chars × Chars)) (k : Chars) : Option Chars :=
  match kvs with
  | [] => none
  | (k', v) :: rest => if k' = k then some v else lookupKey rest k

/-- `deserialize_datetime` from note.rs: require date, time and offset;
`Offset::Z` maps to 0 minutes; build the `FixedOffset` (`east_opt` bounds)
and validate the calendar fields (`with_ymd_and_hms`); `.latest()` is the
identity for a fixed offset (no DST fold); `with_nanosecond` accepts values
below two seconds' worth. -/
def deserialize_datetime (td : TomlDatetime) : Option CDateTime := do
  let date ← td.date
  let time ← td.time
  let offset ← td.offset
  let offsetMinutes : Int := match offset with | .z => 0 | .custom m => m
  let offsetSeconds := offsetMinutes * 60
  guard (-86400 < offsetSeconds ∧ offsetSeconds < 86400)
  guard (1 ≤ date.month ∧ date.month ≤ 12 ∧ 1 ≤ date.day ∧
    date.day ≤ daysInMonth (Int.ofNat date.year) date.month ∧
    time.hour < 24 ∧ time.minute < 60 ∧ time.second < 60)
  guard (time.nanosecond < 2000000000)
  pure ⟨Int.ofNat date.year, date.month, date.day, time.hour, time.minute, time.second,
    time.nanosecond, offsetSeconds⟩

/-- `toml::from_str::<Preamble>` on the fenced block's contents, composed
with the serde derive and `deserialize_datetime`: parse `key = value` lines
(empty lines skipped), read `title` as a string and `created_at` as a
datetime. `none` is any `toml::de::Error`. -/
def tomlParsePreamble (s : Chars) : Option Preamble := do
  let kvs ← linesToKvs ((splitLines s).filter (fun l => !l.isEmpty))
  let titleRaw ← lookupKey kvs "title".data
  let title ← parseBasicString titleRaw
  let caRaw ← lookupKey kvs "created_at".data
  let td ← parseTomlDatetimeValue caRaw
  let dt ← deserialize_datetime td
  pure ⟨title, dt⟩

/-- `extract_preamble`: fence check, read to the closing fence, TOML-parse
the block. The `IOError` variant needs an I/O fault and cannot fire in this
model. -/
def extract_preamble (s : Chars) : Except InvalidPreambleError Preamble :=
  match ensure_preamble_fence s with
  | .error e => .error e
  | .ok rest =>
    match read_until_closing_fence rest with
    | .error e => .error e
    | .ok toml =>
      match tomlParsePreamble toml with
      | some p => .ok p
      | none => .error .deserializeError

/-! ## Line-reader lemmas -/

theorem readLineGo_append {l : Chars} (hl : ∀ c ∈ l, c ≠ '\n') :
    ∀ (acc r : Chars), readLineGo acc (l ++ '\n' :: r) = (acc.reverse ++ (l ++ ['\n']), r) := by
  induction l with
  | nil => intro acc r; simp [readLineGo]
  | cons x xs ih =>
    intro acc r
    have hx : x ≠ '\n' := hl x (by simp)
    simp only [List.cons_append, readLineGo, if_neg hx]
    rw [List.append_eq, ih (fun c hc => hl c (by simp [hc])) (x :: acc) r]
    simp

theorem readLine_append {l : Chars} (hl : ∀ c ∈ l, c ≠ '\n') (r : Chars) :
    readLine (l ++ '\n' :: r) = (l ++ ['\n'], r) := by
  unfold readLine
  rw [readLineGo_append hl [] r]
  simp

theorem readLineGo_no_newline {l : Chars} (hl : ∀ c ∈ l, c ≠ '\n') :
    ∀ acc : Chars, readLineGo acc l = (acc.reverse ++ l, []) := by
  induction l with
  | nil => intro acc; simp [readLineGo]
  | cons x xs ih =>
    intro acc
    have hx : x ≠ '\n' := hl x (by simp)
    simp only [readLineGo, if_neg hx]
    rw [ih (fun c hc => hl c (by simp [hc])) (x :: acc)]
    simp

theorem readLine_no_newline {l : Chars} (hl : ∀ c ∈ l, c ≠ '\n') : readLine l = (l, []) := by
  unfold readLine
  rw [readLineGo_no_newline hl []]
  simp

theorem append_newline_ne_dashes (l : Chars) : l ++ ['\n'] ≠ "---".data := by
  intro h
  have : '\n' ∈ "---".data := by
    rw [← h]
    simp
  simp at this

theorem append_newline_eq_dashes_iff (l : Chars) :
    l ++ ['\n'] = "---\n".data ↔ l = "---".data := by
  constructor
  · intro h
    have h2 : l ++ ['\n'] = "---".data ++ ['\n'] := by
      rw [h]
      rfl
    exact List.append_cancel_right h2
  · intro h
    rw [h]
    rfl

theorem readUntilGo_cons (acc : Chars) (c : Char) (tl : Chars) (fuel : Nat) :
    readUntilGo acc (c :: tl) (fuel + 1) =
      if (readLine (c :: tl)).1 = "---".data ∨ (readLine (c :: tl)).1 = "---\n".data
      then .ok acc
      else readUntilGo (acc ++ (readLine (c :: tl)).1) (readLine (c :: tl)).2 fuel := rfl

theorem readUntilGo_step {l : Chars} (hl : ∀ c ∈ l, c ≠ '\n') (hne : l ≠ "---".data)
    (acc r : Chars) (fuel : Nat) :
    readUntilGo acc (l ++ '\n' :: r) (fuel + 1) =
      readUntilGo (acc ++ (l ++ ['\n'])) r fuel := by
  have hline := readLine_append hl r
  have hcheck : ¬ (l ++ ['\n'] = "---".data ∨ l ++ ['\n'] = "---\n".data) := by
    rintro (h | h)
    · exact append_newline_ne_dashes l h
    · exact hne ((append_newline_eq_dashes_iff l).mp h)
  cases l with
  | nil => rfl
  | cons x xs =>
    simp only [List.cons_append] at hline hcheck ⊢
    have h1 : (readLine (x :: (xs ++ '\n' :: r))).1 = x :: (xs ++ ['\n']) := by rw [hline]
    have h2 : (readLine (x :: (xs ++ '\n' :: r))).2 = r := by rw [hline]
    rw [readUntilGo_cons, h1, h2, if_neg hcheck]

theorem readUntilGo_step' {l : Chars} (hl : ∀ c ∈ l, c ≠ '\n') (hne : l ≠ "---".data)
    (acc r : Chars) (fuel : Nat) (hf : 1 ≤ fuel) :
    readUntilGo acc (l ++ '\n' :: r) fuel =
      readUntilGo (acc ++ (l ++ ['\n'])) r (fuel - 1) := by
  obtain ⟨f, rfl⟩ : ∃ f, fuel = f + 1 := ⟨fuel - 1, by omega⟩
  rw [readUntilGo_step hl hne]
  simp

theorem readUntilGo_closing (acc : Chars) (fuel : Nat) (hf : 1 ≤ fuel) :
    readUntilGo acc "---".data fuel = .ok acc := by
  obtain ⟨f, rfl⟩ : ∃ f, fuel = f + 1 := ⟨fuel - 1, by omega⟩
  have hline : readLine "---".data = ("---".data, []) :=
    readLine_no_newline (by decide)
  simp only [readUntilGo, hline]
  simp

/-- `read_until_closing_fence` on a two-line block followed by a bare
closing fence accumulates exactly the two lines. -/
theorem read_until_doc (t c : Chars) (ht : ∀ x ∈ t, x ≠ '\n') (hc : ∀ x ∈ c, x ≠ '\n')
    (ht3 : t ≠ "---".data) (hc3 : c ≠ "---".data) :
    read_until_closing_fence (t ++ '\n' :: (c ++ '\n' :: "---".data)) =
      .ok ((t ++ ['\n']) ++ (c ++ ['\n'])) := by
  unfold read_until_closing_fence
  have h3 : ("---".data : Chars).length = 3 := rfl
  have hlen : (t ++ '\n' :: (c ++ '\n' :: "---".data)).length = t.length + c.length + 5 := by
    simp only [List.length_append, List.length_cons, h3]
    omega
  rw [readUntilGo_step' ht ht3 _ _ _ (by omega)]
  rw [readUntilGo_step' hc hc3 _ _ _ (by rw [hlen]; omega)]
  rw [readUntilGo_closing _ _ (by rw [hlen]; omega)]
  simp

/-! ## Digit and padding lemmas for the datetime text -/

theorem isDigit_toNat_bounds {c : Char} (h : c.isDigit = true) :
    48 ≤ c.toNat ∧ c.toNat ≤ 57 := by
  simp only [Char.isDigit, ge_iff_le, Bool.and_eq_true, decide_eq_true_eq] at h
  obtain ⟨h1, h2⟩ := h
  exact ⟨h1, h2⟩

theorem isDigit_ne {c x : Char} (h : c.isDigit = true) (hx : x.toNat < 48 ∨ 57 < x.toNat) :
    c ≠ x := by
  intro heq
  subst heq
  have := isDigit_toNat_bounds h
  omega

theorem foldDigitsFrom_replicate_zero : ∀ (k a : Nat),
    foldDigitsFrom a (List.replicate k '0') = a * 10 ^ k := by
  intro k
  induction k with
  | zero => intro a; simp [foldDigitsFrom]
  | succ k ih =>
    intro a
    simp only [List.replicate_succ, foldDigitsFrom, List.foldl_cons] at *
    rw [ih (a * 10 + digitVal '0')]
    have : digitVal '0' = 0 := rfl
    rw [this]
    ring

theorem padZeros_all_digit (w n : Nat) : ∀ c ∈ padZeros w n, c.isDigit = true := by
  intro c hc
  rcases List.mem_append.mp hc with h | h
  · have := List.eq_of_mem_replicate h
    subst this
    rfl
  · exact natDecimal_all_digit n c h

theorem padZeros_length {w n : Nat} (hw : 1 ≤ w) (h : n < 10 ^ w) :
    (padZeros w n).length = w := by
  have hlen : (natDecimal n).length ≤ w := natDecimal_length_le hw h
  simp only [padZeros, List.length_append, List.length_replicate]
  omega

theorem foldDigits_padZeros (w n : Nat) : foldDigits (padZeros w n) = n := by
  unfold foldDigits padZeros
  rw [foldDigitsFrom_append, foldDigitsFrom_replicate_zero]
  simp only [Nat.zero_mul]
  simpa using foldDigitsFrom_natDecimal n 0

theorem parseNDigits_exact {ds : Chars} {k : Nat} (hk : ds.length = k)
    (hd : ∀ c ∈ ds, c.isDigit = true) (rest : Chars) :
    parseNDigits k (ds ++ rest) = some (foldDigits ds, rest) := by
  subst hk
  have htake : (ds ++ rest).take ds.length = ds := List.take_left ds rest
  have hdrop : (ds ++ rest).drop ds.length = rest := List.drop_left ds rest
  simp only [parseNDigits, htake, hdrop]
  have hall : ds.all Char.isDigit = true := List.all_eq_true.mpr hd
  simp [hall]

theorem parseNDigits_padZeros {w n : Nat} (hw : 1 ≤ w) (h : n < 10 ^ w) (rest : Chars) :
    parseNDigits w (padZeros w n ++ rest) = some (n, rest) := by
  have := parseNDigits_exact (padZeros_length hw h) (padZeros_all_digit w n) rest
  rwa [foldDigits_padZeros] at this

theorem expectChar_cons (c : Char) (rest : Chars) : expectChar c (c :: rest) = some rest := by
  simp [expectChar]

/-! ## Trailing-zero trimming -/

theorem trimTrailingZeros_decomp (l : Chars) :
    l = trimTrailingZeros l ++ List.replicate (l.length - (trimTrailingZeros l).length) '0' := by
  unfold trimTrailingZeros
  have hsplit : l.reverse.takeWhile (fun c => c == '0') ++
      l.reverse.dropWhile (fun c => c == '0') = l.reverse := by
    apply List.takeWhile_append_dropWhile
  have hzeros : l.reverse.takeWhile (fun c => c == '0') =
      List.replicate (l.reverse.takeWhile (fun c => c == '0')).length '0' := by
    apply List.eq_replicate_of_mem
    intro b hb
    have := List.mem_takeWhile_imp hb
    simpa using this
  have hlen : (l.reverse.dropWhile (fun c => c == '0')).length +
      (l.reverse.takeWhile (fun c => c == '0')).length = l.length := by
    have := congrArg List.length hsplit
    simp only [List.length_append, List.length_reverse] at this
    omega
  have hgoal : (l.reverse.takeWhile (fun c => c == '0')).length =
      l.length - ((l.reverse.dropWhile (fun c => c == '0')).reverse).length := by
    simp only [List.length_reverse]
    omega
  conv_lhs => rw [← l.reverse_reverse, ← hsplit]
  rw [List.reverse_append, hzeros]
  simp only [List.reverse_replicate]
  rw [hgoal]

theorem trimTrailingZeros_sublist (l : Chars) :
    ∀ c ∈ trimTrailingZeros l, c ∈ l := by
  intro c hc
  have h2 : c ∈ trimTrailingZeros l ++
      List.replicate (l.length - (trimTrailingZeros l).length) '0' :=
    List.mem_append.mpr (Or.inl hc)
  rwa [← trimTrailingZeros_decomp l] at h2

theorem trimTrailingZeros_length_le (l : Chars) : (trimTrailingZeros l).length ≤ l.length := by
  have := congrArg List.length (trimTrailingZeros_decomp l)
  simp only [List.length_append, List.length_replicate] at this
  omega

/-- The scaled value of the trimmed fraction digits equals the value of the
full digit block. -/
theorem foldDigits_trim_scaled {l : Chars} :
    foldDigits (trimTrailingZeros l) * 10 ^ (l.length - (trimTrailingZeros l).length) =
      foldDigits l := by
  conv_rhs => rw [trimTrailingZeros_decomp l]
  unfold foldDigits
  rw [foldDigitsFrom_append, foldDigitsFrom_replicate_zero]

theorem trimTrailingZeros_ne_nil {l : Chars} (h : foldDigits l ≠ 0) :
    trimTrailingZeros l ≠ [] := by
  intro hnil
  apply h
  conv_lhs => rw [trimTrailingZeros_decomp l, hnil]
  simp only [List.nil_append, List.length_nil, Nat.sub_zero]
  unfold foldDigits
  rw [foldDigitsFrom_replicate_zero]
  simp

/-! ## Parsing the rendered datetime back -/

theorem dropWhile_eq_self_of_all {p : Char → Bool} {l : Chars}
    (h : ∀ c ∈ l, p c = false) : l.dropWhile p = l := by
  apply List.dropWhile_eq_self_iff.mpr
  cases l with
  | nil => simp
  | cons a tl => simp [h a (by simp)]

theorem parseTomlDate_display {y mo d : Nat} (hy : y < 10000) (hmo : mo < 100)
    (hd : d < 100) (rest : Chars) :
    parseTomlDate (padZeros 4 y ++ '-' :: (padZeros 2 mo ++ '-' :: (padZeros 2 d ++ rest))) =
      some (⟨y, mo, d⟩, rest) := by
  have e4 : (10 : Nat) ^ 4 = 10000 := by norm_num
  have e2 : (10 : Nat) ^ 2 = 100 := by norm_num
  have hA := parseNDigits_padZeros (by norm_num : (1:Nat) ≤ 4)
    (by rw [e4]; exact hy) ('-' :: (padZeros 2 mo ++ '-' :: (padZeros 2 d ++ rest)))
  have hB := parseNDigits_padZeros (by norm_num : (1:Nat) ≤ 2)
    (by rw [e2]; exact hmo) ('-' :: (padZeros 2 d ++ rest))
  have hC := parseNDigits_padZeros (by norm_num : (1:Nat) ≤ 2)
    (by rw [e2]; exact hd) rest
  simp [parseTomlDate, hA, hB, hC, expectChar_cons]

theorem parseFraction_display {nano : Nat} (h9 : nano < 1000000000) (h0 : nano ≠ 0)
    (c0 : Char) (hc0 : c0.isDigit = false) (r0 : Chars) :
    parseFraction (displayFraction nano ++ c0 :: r0) = some (nano, c0 :: r0) := by
  have e9 : (10 : Nat) ^ 9 = 1000000000 := by norm_num
  have hpadlen : (padZeros 9 nano).length = 9 :=
    padZeros_length (by norm_num) (by rw [e9]; exact h9)
  have hfold : foldDigits (padZeros 9 nano) = nano := foldDigits_padZeros 9 nano
  set t := trimTrailingZeros (padZeros 9 nano) with ht
  have htd : ∀ c ∈ t, c.isDigit = true := fun c hc =>
    padZeros_all_digit 9 nano c (trimTrailingZeros_sublist _ c hc)
  have htne : t ≠ [] := trimTrailingZeros_ne_nil (by rw [hfold]; exact h0)
  have htlen : t.length ≤ 9 := by
    rw [ht]
    have h1 := trimTrailingZeros_length_le (padZeros 9 nano)
    omega
  have hdf : displayFraction nano = '.' :: t := by
    simp [displayFraction, h0, ht]
  rw [hdf]
  simp only [List.cons_append, parseFraction]
  have htake : (t ++ c0 :: r0).takeWhile Char.isDigit = t :=
    takeWhile_append_of_all htd hc0
  rw [htake]
  have hemp : t.isEmpty = false := by
    cases hq : t with
    | nil => exact absurd hq htne
    | cons a l => rfl
  simp only [hemp, Bool.false_eq_true, if_false]
  rw [List.take_of_length_le htlen]
  have hdrop : (t ++ c0 :: r0).drop t.length = c0 :: r0 := List.drop_left t _
  rw [hdrop]
  have hscale : foldDigits t * 10 ^ (9 - t.length) = nano := by
    have h2 := @foldDigits_trim_scaled (padZeros 9 nano)
    rw [hpadlen, hfold] at h2
    exact h2
  rw [hscale]

theorem parseTomlTime_display {h mi se nano : Nat} (hh : h < 100) (hmi : mi < 100)
    (hse : se < 100) (h9 : nano < 1000000000)
    (c0 : Char) (hc0 : c0.isDigit = false) (hc0d : c0 ≠ '.') (r0 : Chars) :
    parseTomlTime (padZeros 2 h ++ ':' :: (padZeros 2 mi ++ ':' :: (padZeros 2 se ++
      (displayFraction nano ++ c0 :: r0)))) = some (⟨h, mi, se, nano⟩, c0 :: r0) := by
  have e2 : (10 : Nat) ^ 2 = 100 := by norm_num
  have hA := parseNDigits_padZeros (by norm_num : (1:Nat) ≤ 2)
    (by rw [e2]; exact hh) (':' :: (padZeros 2 mi ++ ':' :: (padZeros 2 se ++
      (displayFraction nano ++ c0 :: r0))))
  have hB := parseNDigits_padZeros (by norm_num : (1:Nat) ≤ 2)
    (by rw [e2]; exact hmi) (':' :: (padZeros 2 se ++ (displayFraction nano ++ c0 :: r0)))
  have hC := parseNDigits_padZeros (by norm_num : (1:Nat) ≤ 2)
    (by rw [e2]; exact hse) (displayFraction nano ++ c0 :: r0)
  by_cases h0 : nano = 0
  · subst h0
    have hdf : displayFraction 0 = [] := by simp [displayFraction]
    rw [hdf] at hA hB hC ⊢
    simp only [List.nil_append] at hA hB hC ⊢
    simp [parseTomlTime, hA, hB, hC, expectChar_cons]
    split
    · rename_i x heq
      rw [List.cons.injEq] at heq
      exact absurd heq.1 hc0d
    · rfl
  · have hF := parseFraction_display h9 h0 c0 hc0 r0
    have hdf : displayFraction nano = '.' :: trimTrailingZeros (padZeros 9 nano) := by
      simp [displayFraction, h0]
    rw [hdf] at hA hB hC hF ⊢
    simp only [List.cons_append] at hA hB hC hF ⊢
    simp [parseTomlTime, hA, hB, hC, expectChar_cons, hF]

theorem parseTomlOffset_display {m : Int} (hm : m.natAbs < 6000) :
    parseTomlOffset (displayTomlOffset (.custom m)) = some (.custom m, []) := by
  have e2 : (10 : Nat) ^ 2 = 100 := by norm_num
  have hdiv : m.natAbs / 60 < 100 := by omega
  have hmod : m.natAbs % 60 < 100 := by omega
  have hA := parseNDigits_padZeros (by norm_num : (1:Nat) ≤ 2)
    (by rw [e2]; exact hdiv) (':' :: padZeros 2 (m.natAbs % 60))
  have hB := parseNDigits_padZeros (by norm_num : (1:Nat) ≤ 2)
    (by rw [e2]; exact hmod) ([] : Chars)
  rw [List.append_nil] at hB
  by_cases hneg : m < 0
  · have hsign : displayTomlOffset (.custom m) =
        '-' :: (padZeros 2 (m.natAbs / 60) ++ ':' :: padZeros 2 (m.natAbs % 60)) := by
      simp [displayTomlOffset, hneg]
    have hval : -((m.natAbs / 60 * 60 + m.natAbs % 60 : Nat) : Int) = m := by omega
    rw [hsign]
    simp [parseTomlOffset, hA, hB, expectChar_cons, hval]
    rw [abs_of_neg hneg]
    omega
  · have hsign : displayTomlOffset (.custom m) =
        '+' :: (padZeros 2 (m.natAbs / 60) ++ ':' :: padZeros 2 (m.natAbs % 60)) := by
      simp [displayTomlOffset, hneg]
    have hval : ((m.natAbs / 60 * 60 + m.natAbs % 60 : Nat) : Int) = m := by omega
    rw [hsign]
    simp [parseTomlOffset, hA, hB, expectChar_cons, hval]
    rw [abs_of_nonneg (not_lt.mp hneg)]
    omega

theorem parseTomlDatetimeValue_display {y mo d h mi se nano : Nat} {m : Int}
    (hy : y < 10000) (hmo : mo < 100) (hd : d < 100) (hh : h < 100) (hmi : mi < 100)
    (hse : se < 100) (h9 : nano < 1000000000) (hm : m.natAbs < 6000) :
    parseTomlDatetimeValue (displayTomlDatetime
      ⟨some ⟨y, mo, d⟩, some ⟨h, mi, se, nano⟩, some (.custom m)⟩) =
      some ⟨some ⟨y, mo, d⟩, some ⟨h, mi, se, nano⟩, some (.custom m)⟩ := by
  obtain ⟨c0, r0, hop, hc0, hc0d, hc0T⟩ :
      ∃ c0 r0, displayTomlOffset (.custom m) = c0 :: r0 ∧ c0.isDigit = false ∧
        c0 ≠ '.' ∧ ¬(c0 = 'T' ∨ c0 = 't' ∨ c0 = ' ') := by
    by_cases hneg : m < 0
    · exact ⟨'-', padZeros 2 (m.natAbs / 60) ++ ':' :: padZeros 2 (m.natAbs % 60),
        by simp [displayTomlOffset, hneg], by decide, by decide, by decide⟩
    · exact ⟨'+', padZeros 2 (m.natAbs / 60) ++ ':' :: padZeros 2 (m.natAbs % 60),
        by simp [displayTomlOffset, hneg], by decide, by decide, by decide⟩
  have hshape : displayTomlDatetime
      ⟨some ⟨y, mo, d⟩, some ⟨h, mi, se, nano⟩, some (.custom m)⟩ =
      padZeros 4 y ++ '-' :: (padZeros 2 mo ++ '-' :: (padZeros 2 d ++
        ('T' :: (padZeros 2 h ++ ':' :: (padZeros 2 mi ++ ':' :: (padZeros 2 se ++
          (displayFraction nano ++ c0 :: r0))))))) := by
    rw [← hop]
    simp [displayTomlDatetime, displayDatePart, displayTimePart, displayOffsetPart]
  rw [hshape]
  have hdate := parseTomlDate_display hy hmo hd
    ('T' :: (padZeros 2 h ++ ':' :: (padZeros 2 mi ++ ':' :: (padZeros 2 se ++
      (displayFraction nano ++ c0 :: r0)))))
  have htime := parseTomlTime_display hh hmi hse h9 c0 hc0 hc0d r0
  have hoffp : parseTomlOffset (c0 :: r0) = some (.custom m, []) := by
    rw [← hop]
    exact parseTomlOffset_display hm
  simp [parseTomlDatetimeValue, hdate, htime, hoffp]

theorem deserialize_datetime_ok {y mo d h mi se nano : Nat} {m : Int}
    (h1 : 1 ≤ mo) (h2 : mo ≤ 12) (h3 : 1 ≤ d) (h4 : d ≤ daysInMonth (y : Int) mo)
    (h5 : h < 24) (h6 : mi < 60) (h7 : se < 60) (h8 : nano < 2000000000)
    (h9 : -86400 < m * 60) (h10 : m * 60 < 86400) :
    deserialize_datetime ⟨some ⟨y, mo, d⟩, some ⟨h, mi, se, nano⟩, some (.custom m)⟩ =
      some ⟨Int.ofNat y, mo, d, h, mi, se, nano, m * 60⟩ := by
  simp [deserialize_datetime, h1, h2, h3, h4, h5, h6, h7, h8, h9, h10]

/-! ## The TOML document layer -/

theorem splitLinesGo_append {l : Chars} (hl : ∀ c ∈ l, c ≠ '\n') :
    ∀ (cur r : Chars), splitLinesGo cur (l ++ '\n' :: r) =
      (cur.reverse ++ l) :: splitLinesGo [] r := by
  induction l with
  | nil => intro cur r; simp [splitLinesGo]
  | cons x xs ih =>
    intro cur r
    have hx : x ≠ '\n' := hl x (by simp)
    simp only [List.cons_append, splitLinesGo, if_neg hx]
    rw [List.append_eq, ih (fun c hc => hl c (by simp [hc])) (x :: cur) r]
    simp

theorem splitLinesGo_no_newline {l : Chars} (hl : ∀ c ∈ l, c ≠ '\n') :
    ∀ cur : Chars, splitLinesGo cur l = [cur.reverse ++ l] := by
  induction l with
  | nil => intro cur; simp [splitLinesGo]
  | cons x xs ih =>
    intro cur
    have hx : x ≠ '\n' := hl x (by simp)
    simp only [splitLinesGo, if_neg hx]
    rw [ih (fun c hc => hl c (by simp [hc])) (x :: cur)]
    simp

/-- Splitting the accumulated two-line block yields the two lines plus a
trailing empty segment. -/
theorem splitLines_doc (t c : Chars) (ht : ∀ x ∈ t, x ≠ '\n') (hc : ∀ x ∈ c, x ≠ '\n') :
    splitLines (t ++ '\n' :: (c ++ '\n' :: [])) = [t, c, []] := by
  unfold splitLines
  rw [splitLinesGo_append ht [] (c ++ '\n' :: [])]
  rw [splitLinesGo_append hc [] []]
  simp [splitLinesGo]

theorem trimTrailingSpaces_no_space {k : Chars} (hk : ∀ c ∈ k, c ≠ ' ') :
    trimTrailingSpaces k = k := by
  unfold trimTrailingSpaces
  rw [dropWhile_eq_self_of_all]
  · simp
  · intro c hc
    have : c ∈ k := List.mem_reverse.mp hc
    simpa using hk c this

theorem trimTrailingSpaces_concat_space {k : Chars} (hk : ∀ c ∈ k, c ≠ ' ') :
    trimTrailingSpaces (k ++ [' ']) = k := by
  unfold trimTrailingSpaces
  rw [List.reverse_append]
  have : ([' '] : Chars).reverse = [' '] := rfl
  rw [this]
  have hstep : (' ' :: k.reverse).dropWhile (fun c => c == ' ') =
      k.reverse.dropWhile (fun c => c == ' ') := by
    simp [List.dropWhile]
  rw [List.singleton_append, hstep, dropWhile_eq_self_of_all]
  · simp
  · intro c hc
    have : c ∈ k := List.mem_reverse.mp hc
    simpa using hk c this

/-- A serializer-shaped `key = value` line parses to its key and value. -/
theorem parseKeyValueLine_std {k : Chars} (hk : ∀ c ∈ k, c ≠ '=' ∧ c ≠ ' ')
    {c0 : Char} (hc0 : c0 ≠ ' ') (v0 : Chars) :
    parseKeyValueLine (k ++ ' ' :: '=' :: ' ' :: (c0 :: v0)) = some (k, c0 :: v0) := by
  have hke : ∀ c ∈ k ++ [' '], (fun c => c != '=') c = true := by
    intro c hc
    rcases List.mem_append.mp hc with h | h
    · simpa using (hk c h).1
    · simp only [List.mem_singleton] at h
      subst h
      decide
  have hshape : k ++ ' ' :: '=' :: ' ' :: (c0 :: v0) =
      (k ++ [' ']) ++ '=' :: (' ' :: (c0 :: v0)) := by
    simp
  rw [parseKeyValueLine, hshape]
  rw [takeWhile_append_of_all hke (by decide), dropWhile_append_of_all hke (by decide)]
  rw [trimTrailingSpaces_concat_space (fun c hc => (hk c hc).2)]
  have hdrop : ((' ' :: (c0 :: v0)) : Chars).dropWhile (fun c => c == ' ') = c0 :: v0 := by
    simp only [List.dropWhile]
    have h1 : (' ' == ' ') = true := by decide
    have h2 : (c0 == ' ') = false := by simpa using hc0
    simp [h1, h2]
  simp [hdrop]

theorem parseBasicString_plain {title : Chars} (ht : ∀ c ∈ title, c ≠ '"') :
    parseBasicString ('"' :: (title ++ ['"'])) = some title := by
  have htake : (title ++ '"' :: []).takeWhile (fun c => c != '"') = title :=
    takeWhile_append_of_all (fun c hc => by simpa using ht c hc) (by decide)
  simp only [parseBasicString, htake]
  have hdrop : (title ++ ['"']).drop title.length = ['"'] := List.drop_left title _
  rw [hdrop]
  rfl

/-! ## Newline-freeness of the serialized lines -/

theorem padZeros_ne_newline (w n : Nat) : ∀ c ∈ padZeros w n, c ≠ '\n' := fun c hc =>
  isDigit_ne (padZeros_all_digit w n c hc) (Or.inl (by decide))

theorem displayFraction_ne_newline (n : Nat) : ∀ c ∈ displayFraction n, c ≠ '\n' := by
  intro c hc
  unfold displayFraction at hc
  split at hc
  · simp at hc
  · rcases List.mem_cons.mp hc with h | h
    · subst h; decide
    · exact padZeros_ne_newline 9 n c (trimTrailingZeros_sublist _ c h)

theorem displayTomlOffset_ne_newline (o : TomlOffset) :
    ∀ c ∈ displayTomlOffset o, c ≠ '\n' := by
  intro c hc
  cases o with
  | z =>
    simp only [displayTomlOffset, List.mem_singleton] at hc
    subst hc; decide
  | custom m =>
    simp only [displayTomlOffset] at hc
    rcases List.mem_cons.mp hc with h | h
    · subst h
      split <;> decide
    · rcases List.mem_append.mp h with h | h
      · exact padZeros_ne_newline _ _ c h
      · rcases List.mem_cons.mp h with h | h
        · subst h; decide
        · exact padZeros_ne_newline _ _ c h

theorem displayTomlDatetime_ne_newline (td : TomlDatetime) :
    ∀ c ∈ displayTomlDatetime td, c ≠ '\n' := by
  obtain ⟨dateO, timeO, offO⟩ := td
  intro c hc
  simp only [displayTomlDatetime, List.append_assoc, List.mem_append] at hc
  rcases hc with h | h | h
  · cases dateO with
    | none => simp [displayDatePart] at h
    | some dd =>
      simp only [displayDatePart] at h
      rcases List.mem_append.mp h with h | h
      · exact padZeros_ne_newline _ _ c h
      · rcases List.mem_cons.mp h with h | h
        · subst h; decide
        · rcases List.mem_append.mp h with h | h
          · exact padZeros_ne_newline _ _ c h
          · rcases List.mem_cons.mp h with h | h
            · subst h; decide
            · exact padZeros_ne_newline _ _ c h
  · cases timeO with
    | none => simp [displayTimePart] at h
    | some tt =>
      simp only [displayTimePart] at h
      rcases List.mem_cons.mp h with h | h
      · subst h; decide
      · rcases List.mem_append.mp h with h | h
        · exact padZeros_ne_newline _ _ c h
        · rcases List.mem_cons.mp h with h | h
          · subst h; decide
          · rcases List.mem_append.mp h with h | h
            · exact padZeros_ne_newline _ _ c h
            · rcases List.mem_cons.mp h with h | h
              · subst h; decide
              · rcases List.mem_append.mp h with h | h
                · exact padZeros_ne_newline _ _ c h
                · exact displayFraction_ne_newline _ c h
  · cases offO with
    | none => simp [displayOffsetPart] at h
    | some oo =>
      simp only [displayOffsetPart] at h
      exact displayTomlOffset_ne_newline oo c h

theorem plainChar_ne_newline {c : Char} (h : PlainChar c) : c ≠ '\n' := by
  intro heq
  subst heq
  obtain ⟨-, -, h3, -⟩ := h
  revert h3
  decide

theorem plainChar_ne_quote {c : Char} (h : PlainChar c) : c ≠ '"' := h.1

/-! ## The serialized document parses back -/

theorem ensure_fence_ok (r : Chars) :
    ensure_preamble_fence ("---\n".data ++ r) = .ok r := by
  have hsh : "---\n".data ++ r = "---".data ++ '\n' :: r := rfl
  rw [ensure_preamble_fence, hsh, readLine_append (by decide) r]
  simp only []
  rw [if_pos (by decide)]

theorem tomlParsePreamble_doc (title : Chars) (htq : ∀ c ∈ title, c ≠ '"')
    (htn : ∀ c ∈ title, c ≠ '\n')
    {y mo d h mi se nano : Nat} {m : Int}
    (hy : y < 10000) (hmo : mo < 100) (hd : d < 100) (hh100 : h < 100) (hmi100 : mi < 100)
    (hse100 : se < 100) (h9 : nano < 1000000000) (hm : m.natAbs < 6000)
    (h1 : 1 ≤ mo) (h2 : mo ≤ 12) (h3 : 1 ≤ d) (h4 : d ≤ daysInMonth (y : Int) mo)
    (h5 : h < 24) (h6 : mi < 60) (h7 : se < 60)
    (ho1 : -86400 < m * 60) (ho2 : m * 60 < 86400) :
    tomlParsePreamble
      ((("title = ".data ++ encodeTomlString title) ++ ['\n']) ++
       (("created_at = ".data ++ displayTomlDatetime
          ⟨some ⟨y, mo, d⟩, some ⟨h, mi, se, nano⟩, some (.custom m)⟩) ++ ['\n'])) =
      some ⟨title, ⟨(y : Int), mo, d, h, mi, se, nano, m * 60⟩⟩ := by
  have e4 : (10 : Nat) ^ 4 = 10000 := by norm_num
  -- newline-freeness of the two lines
  have htl_nl : ∀ x ∈ "title = ".data ++ encodeTomlString title, x ≠ '\n' := by
    intro x hx
    rcases List.mem_append.mp hx with hx | hx
    · have hlit : ∀ z ∈ "title = ".data, z ≠ '\n' := by decide
      exact hlit x hx
    · unfold encodeTomlString at hx
      rcases List.mem_cons.mp hx with hx | hx
      · subst hx; decide
      · rcases List.mem_append.mp hx with hx | hx
        · exact htn x hx
        · simp only [List.mem_singleton] at hx
          subst hx; decide
  have hcl_nl : ∀ x ∈ "created_at = ".data ++ displayTomlDatetime
      ⟨some ⟨y, mo, d⟩, some ⟨h, mi, se, nano⟩, some (.custom m)⟩, x ≠ '\n' := by
    intro x hx
    rcases List.mem_append.mp hx with hx | hx
    · have hlit : ∀ z ∈ "created_at = ".data, z ≠ '\n' := by decide
      exact hlit x hx
    · exact displayTomlDatetime_ne_newline _ x hx
  -- reshape the accumulated block into two newline-terminated segments
  have hacc : ((("title = ".data ++ encodeTomlString title) ++ ['\n']) ++
      (("created_at = ".data ++ displayTomlDatetime
        ⟨some ⟨y, mo, d⟩, some ⟨h, mi, se, nano⟩, some (.custom m)⟩) ++ ['\n'])) =
      ("title = ".data ++ encodeTomlString title) ++ '\n' ::
        (("created_at = ".data ++ displayTomlDatetime
          ⟨some ⟨y, mo, d⟩, some ⟨h, mi, se, nano⟩, some (.custom m)⟩) ++ '\n' :: []) := by
    simp
  have hsplit := splitLines_doc _ _ htl_nl hcl_nl
  -- the head of the rendered datetime is a digit
  obtain ⟨cd, vd, hdispeq, hcd⟩ : ∃ cd vd,
      displayTomlDatetime ⟨some ⟨y, mo, d⟩, some ⟨h, mi, se, nano⟩, some (.custom m)⟩ =
        cd :: vd ∧ cd.isDigit = true := by
    cases hpz : padZeros 4 y with
    | nil =>
      have := padZeros_length (by norm_num : (1:Nat) ≤ 4) (by rw [e4]; exact hy)
      rw [hpz] at this
      simp at this
    | cons a l =>
      refine ⟨a, l ++ ('-' :: (padZeros 2 mo ++ '-' :: padZeros 2 d)) ++
        (displayTimePart (some ⟨h, mi, se, nano⟩) ++
          displayOffsetPart (some (.custom m))), ?_, ?_⟩
      · simp [displayTomlDatetime, displayDatePart, hpz]
      · exact padZeros_all_digit 4 y a (by rw [hpz]; simp)
  have hcd_sp : cd ≠ ' ' := isDigit_ne hcd (Or.inl (by decide))
  -- the two key-value lines
  have hsh1 : "title = ".data ++ encodeTomlString title =
      "title".data ++ ' ' :: '=' :: ' ' :: ('"' :: (title ++ ['"'])) := rfl
  have hkv1 := @parseKeyValueLine_std "title".data (by decide) '"' (by decide)
    (title ++ ['"'])
  have hsh2 : "created_at = ".data ++ displayTomlDatetime
      ⟨some ⟨y, mo, d⟩, some ⟨h, mi, se, nano⟩, some (.custom m)⟩ =
      "created_at".data ++ ' ' :: '=' :: ' ' :: (cd :: vd) := by
    rw [show ("created_at = ".data ++ displayTomlDatetime
      ⟨some ⟨y, mo, d⟩, some ⟨h, mi, se, nano⟩, some (.custom m)⟩) =
      "created_at".data ++ ' ' :: '=' :: ' ' :: displayTomlDatetime
        ⟨some ⟨y, mo, d⟩, some ⟨h, mi, se, nano⟩, some (.custom m)⟩ from rfl]
    rw [hdispeq]
  have hkv2 := @parseKeyValueLine_std "created_at".data (by decide) cd hcd_sp vd
  -- the parsed values
  have hstr := parseBasicString_plain htq
  have hdtv := parseTomlDatetimeValue_display hy hmo hd hh100 hmi100 hse100 h9 hm
  have hdes := deserialize_datetime_ok h1 h2 h3 h4 h5 h6 h7
    (show nano < 2000000000 by omega) ho1 ho2
  -- assemble
  rw [hacc]
  unfold tomlParsePreamble
  rw [hsplit]
  have hft : (("title = ".data ++ encodeTomlString title).isEmpty) = false := rfl
  have hfc : (("created_at = ".data ++ displayTomlDatetime
      ⟨some ⟨y, mo, d⟩, some ⟨h, mi, se, nano⟩, some (.custom m)⟩).isEmpty) = false := rfl
  have hfilter : List.filter (fun l => !l.isEmpty)
      [("title = ".data ++ encodeTomlString title),
       ("created_at = ".data ++ displayTomlDatetime
         ⟨some ⟨y, mo, d⟩, some ⟨h, mi, se, nano⟩, some (.custom m)⟩), []] =
      [("title = ".data ++ encodeTomlString title),
       ("created_at = ".data ++ displayTomlDatetime
         ⟨some ⟨y, mo, d⟩, some ⟨h, mi, se, nano⟩, some (.custom m)⟩)] := by
    simp [List.filter, hft, hfc]
  rw [hfilter]
  have hlk1 : parseKeyValueLine ("title = ".data ++ encodeTomlString title) =
      some ("title".data, '"' :: (title ++ ['"'])) := by
    rw [hsh1]
    exact hkv1
  have hlk2 : parseKeyValueLine ("created_at = ".data ++ displayTomlDatetime
      ⟨some ⟨y, mo, d⟩, some ⟨h, mi, se, nano⟩, some (.custom m)⟩) =
      some ("created_at".data, cd :: vd) := by
    rw [hsh2]
    exact hkv2
  have hkvs : linesToKvs [("title = ".data ++ encodeTomlString title),
      ("created_at = ".data ++ displayTomlDatetime
        ⟨some ⟨y, mo, d⟩, some ⟨h, mi, se, nano⟩, some (.custom m)⟩)] =
      some [("title".data, '"' :: (title ++ ['"'])), ("created_at".data, cd :: vd)] := by
    simp only [linesToKvs, hlk1, hlk2]
  rw [hkvs]
  have hlu1 : lookupKey [("title".data, '"' :: (title ++ ['"'])),
      ("created_at".data, cd :: vd)] "title".data = some ('"' :: (title ++ ['"'])) := by
    rw [lookupKey, if_pos rfl]
  have hlu2 : lookupKey [("title".data, '"' :: (title ++ ['"'])),
      ("created_at".data, cd :: vd)] "created_at".data = some (cd :: vd) := by
    have hne : ("title".data : Chars) ≠ "created_at".data := by decide
    rw [lookupKey, if_neg hne, lookupKey, if_pos rfl]
  rw [hdispeq] at hdtv
  simp only [Option.bind_eq_bind, Option.some_bind]
  rw [hlu1]
  simp only [Option.some_bind]
  rw [hstr]
  simp only [Option.some_bind]
  rw [hlu2]
  simp only [Option.some_bind]
  rw [hdtv]
  simp only [Option.some_bind]
  rw [hdes]
  simp only [Option.some_bind]
  rfl

theorem daysInMonth_le (y : Int) (m : Nat) : daysInMonth y m ≤ 31 := by
  unfold daysInMonth
  split <;> first
  | omega
  | (split <;> omega)

/-! ## Claim C2 -/

/-- C2 (amended): for every `Preamble` whose title needs no TOML escaping
(no quote, backslash or control character), whose timestamp is a valid
chrono datetime with year between 0 and 9999 and sub-second part below one
second, and whose fixed UTC offset is a whole number of minutes within
±32767 seconds, `Preamble::serialize` succeeds and `extract_preamble` on its
output returns an equal `Preamble`. (The unrestricted claim is false: see
the sub-minute-offset counterexample.) -/
theorem preamble_serialize_extract_roundtrip (p : Preamble)
    (htitle : ∀ c ∈ p.title, PlainChar c)
    (hvalid : p.created_at.valid)
    (hy0 : 0 ≤ p.created_at.year) (hy : p.created_at.year ≤ 9999)
    (hwhole : p.created_at.offsetSeconds % 60 = 0)
    (hlo : -32768 ≤ p.created_at.offsetSeconds) (hhi : p.created_at.offsetSeconds ≤ 32767)
    (hnano : p.created_at.nanosecond < 1000000000) :
    ∃ s, Preamble.serialize p = .ok s ∧ extract_preamble s = .ok p := by
  obtain ⟨title, ca⟩ := p
  obtain ⟨y, mo, d, hr, mi, se, nano, off⟩ := ca
  obtain ⟨hm1, hm2, hd1, hd2, hh24, hmi60, hse60, hn2, hofs1, hofs2⟩ := hvalid
  replace htitle : ∀ c ∈ title, PlainChar c := htitle
  replace hm1 : 1 ≤ mo := hm1
  replace hm2 : mo ≤ 12 := hm2
  replace hd1 : 1 ≤ d := hd1
  replace hd2 : d ≤ daysInMonth y mo := hd2
  replace hh24 : hr < 24 := hh24
  replace hmi60 : mi < 60 := hmi60
  replace hse60 : se < 60 := hse60
  replace hn2 : nano < 2000000000 := hn2
  replace hofs1 : -86400 < off := hofs1
  replace hofs2 : off < 86400 := hofs2
  replace hy0 : (0 : Int) ≤ y := hy0
  replace hy : y ≤ 9999 := hy
  replace hwhole : off % 60 = 0 := hwhole
  replace hlo : -32768 ≤ off := hlo
  replace hhi : off ≤ 32767 := hhi
  replace hnano : nano < 1000000000 := hnano
  have hdvd : (60 : Int) ∣ off := Int.dvd_of_emod_eq_zero hwhole
  have hm60 : (Int.tdiv off 60) * 60 = off := Int.tdiv_mul_cancel hdvd
  set m := Int.tdiv off 60 with hmdef
  have hmabs : m.natAbs < 6000 := by omega
  have hser : Preamble.serialize ⟨title, ⟨y, mo, d, hr, mi, se, nano, off⟩⟩ =
      .ok ("---\n".data ++ ("title = ".data ++ encodeTomlString title ++ '\n' ::
        ("created_at = ".data ++ displayTomlDatetime
          ⟨some ⟨y.toNat, mo, d⟩, some ⟨hr, mi, se, nano⟩, some (.custom m)⟩ ++
          "\n---".data))) := by
    have hc1 : ¬(off < -32768 ∨ 32767 < off) := by omega
    have hc2 : ¬(y < 0 ∨ 65535 < y) := by omega
    have hc3 : ¬(255 < mo) := by omega
    have hc4 : ¬(255 < d) := by
      have := daysInMonth_le y mo
      omega
    have hc5 : ¬(255 < hr) := by omega
    have hc6 : ¬(255 < mi) := by omega
    have hc7 : ¬(255 < se) := by omega
    simp only [Preamble.serialize, toml_datetime, if_neg hc1, if_neg hc2, if_neg hc3,
      if_neg hc4, if_neg hc5, if_neg hc6, if_neg hc7]
  refine ⟨_, hser, ?_⟩
  -- field bounds for the text layer
  have hy4 : y.toNat < 10000 := by omega
  have hmo100 : mo < 100 := by omega
  have hd100 : d < 100 := by
    have := daysInMonth_le y mo
    omega
  have hh100 : hr < 100 := by omega
  have hmi100 : mi < 100 := by omega
  have hse100 : se < 100 := by omega
  -- the two content lines
  have htl_nl : ∀ x ∈ "title = ".data ++ encodeTomlString title, x ≠ '\n' := by
    intro x hx
    rcases List.mem_append.mp hx with hx | hx
    · have hlit : ∀ z ∈ "title = ".data, z ≠ '\n' := by decide
      exact hlit x hx
    · unfold encodeTomlString at hx
      rcases List.mem_cons.mp hx with hx | hx
      · subst hx; decide
      · rcases List.mem_append.mp hx with hx | hx
        · exact plainChar_ne_newline (htitle x hx)
        · simp only [List.mem_singleton] at hx
          subst hx; decide
  have hcl_nl : ∀ x ∈ "created_at = ".data ++ displayTomlDatetime
      ⟨some ⟨y.toNat, mo, d⟩, some ⟨hr, mi, se, nano⟩, some (.custom m)⟩, x ≠ '\n' := by
    intro x hx
    rcases List.mem_append.mp hx with hx | hx
    · have hlit : ∀ z ∈ "created_at = ".data, z ≠ '\n' := by decide
      exact hlit x hx
    · exact displayTomlDatetime_ne_newline _ x hx
  have ht3 : "title = ".data ++ encodeTomlString title ≠ "---".data := by
    intro hq
    have e1 : (("title = ".data ++ encodeTomlString title).headD ' ') = 't' := rfl
    rw [hq] at e1
    exact absurd e1 (by decide)
  have hc3 : "created_at = ".data ++ displayTomlDatetime
      ⟨some ⟨y.toNat, mo, d⟩, some ⟨hr, mi, se, nano⟩, some (.custom m)⟩ ≠ "---".data := by
    intro hq
    have e1 : (("created_at = ".data ++ displayTomlDatetime
      ⟨some ⟨y.toNat, mo, d⟩, some ⟨hr, mi, se, nano⟩, some (.custom m)⟩).headD ' ') =
        'c' := rfl
    rw [hq] at e1
    exact absurd e1 (by decide)
  -- normalize the serialized text into fence / line / line / fence form
  have hshape : "---\n".data ++ ("title = ".data ++ encodeTomlString title ++ '\n' ::
      ("created_at = ".data ++ displayTomlDatetime
        ⟨some ⟨y.toNat, mo, d⟩, some ⟨hr, mi, se, nano⟩, some (.custom m)⟩ ++
        "\n---".data)) =
      "---\n".data ++ (("title = ".data ++ encodeTomlString title) ++ '\n' ::
        (("created_at = ".data ++ displayTomlDatetime
          ⟨some ⟨y.toNat, mo, d⟩, some ⟨hr, mi, se, nano⟩, some (.custom m)⟩) ++
          '\n' :: "---".data)) := by
    simp
  have henf := ensure_fence_ok (("title = ".data ++ encodeTomlString title) ++ '\n' ::
    (("created_at = ".data ++ displayTomlDatetime
      ⟨some ⟨y.toNat, mo, d⟩, some ⟨hr, mi, se, nano⟩, some (.custom m)⟩) ++
      '\n' :: "---".data))
  have hread := read_until_doc _ _ htl_nl hcl_nl ht3 hc3
  have hparse := tomlParsePreamble_doc title (fun c hc => plainChar_ne_quote (htitle c hc))
    (fun c hc => plainChar_ne_newline (htitle c hc)) hy4 hmo100 hd100 hh100 hmi100 hse100
    hnano hmabs hm1 hm2 hd1 (by rw [Int.toNat_of_nonneg hy0]; exact hd2) hh24 hmi60 hse60
    (by omega) (by omega)
  rw [Int.toNat_of_nonneg hy0, hm60] at hparse
  rw [hshape]
  simp only [extract_preamble, henf, hread, hparse]

/-- C2 counterexample input: the round trip as literally claimed. -/
def serializeThenExtract (p : Preamble) : Option Preamble :=
  match Preamble.serialize p with
  | .ok s =>
    match extract_preamble s with
    | .ok q => some q
    | .error _ => none
  | .error _ => none

/-- C2 counterexample: a `chrono`-valid timestamp whose fixed offset is 30
seconds does not round-trip — the serializer truncates the offset to whole
minutes (`+00:00`), so extraction returns offset 0. The unrestricted claim
"for every Preamble ... round-trips to an equal Preamble" is false. -/
theorem preamble_roundtrip_fails_for_subminute_offset :
    (⟨2015, 10, 21, 7, 28, 0, 0, 30⟩ : CDateTime).valid ∧
    serializeThenExtract ⟨"x".data, ⟨2015, 10, 21, 7, 28, 0, 0, 30⟩⟩ ≠
      some ⟨"x".data, ⟨2015, 10, 21, 7, 28, 0, 0, 30⟩⟩ := by
  constructor
  · decide
  · decide

/-- Witness for the amended C2 at the repo's own test vector
`("Hello world", 2015-10-21T07:28:00-07:00)`. -/
theorem preamble_serialize_extract_roundtrip_witness :
    Preamble.serialize ⟨"Hello world".data, ⟨2015, 10, 21, 7, 28, 0, 0, -25200⟩⟩ =
      .ok "---\ntitle = \"Hello world\"\ncreated_at = 2015-10-21T07:28:00-07:00\n---".data ∧
    extract_preamble
        "---\ntitle = \"Hello world\"\ncreated_at = 2015-10-21T07:28:00-07:00\n---".data =
      .ok ⟨"Hello world".data, ⟨2015, 10, 21, 7, 28, 0, 0, -25200⟩⟩ := by
  obtain ⟨s, h1, h2⟩ := preamble_serialize_extract_roundtrip
    ⟨"Hello world".data, ⟨2015, 10, 21, 7, 28, 0, 0, -25200⟩⟩
    (by decide) (by decide) (by decide) (by decide) (by decide) (by decide) (by decide)
    (by decide)
  have hs : Preamble.serialize ⟨"Hello world".data, ⟨2015, 10, 21, 7, 28, 0, 0, -25200⟩⟩ =
      .ok "---\ntitle = \"Hello world\"\ncreated_at = 2015-10-21T07:28:00-07:00\n---".data := by
    decide
  rw [h1] at hs
  injection hs with hs
  subst hs
  exact ⟨h1, h2⟩

/-! ## Claim C7 -/

/-- C7: the claim says serialization cannot hit the out-of-range branch for
any real calendar date with a real-world offset (up to ±14 hours). The code
converts the offset in seconds into an `i16` before dividing by 60, so a
`chrono`-valid timestamp at UTC+10:00 (36000 seconds — e.g. Sydney standard
time, well under ±14h, year within 16 bits) makes `Preamble::serialize` fail
with the `SerializeError` whose message is the misworded
"utc offset must fit into a u16". -/
theorem serialize_fails_for_real_utc_offset :
    (⟨2015, 10, 21, 7, 28, 0, 0, 36000⟩ : CDateTime).valid ∧
    (0 : Int) ≤ 2015 ∧ (2015 : Int) < 65536 ∧ (36000 : Int) ≤ 14 * 3600 ∧
    Preamble.serialize ⟨"Hello world".data, ⟨2015, 10, 21, 7, 28, 0, 0, 36000⟩⟩ =
      .error "utc offset must fit into a u16".data := by
  refine ⟨by decide, by decide, by decide, by decide, ?_⟩
  decide

/-! ## The index (index.rs) -/

inductive NoteKind
  | note
  | daily
deriving DecidableEq, Repr

/-- `NoteKind::try_from_sql_enum`; the error carries the
`InvalidNoteKindString` display text `invalid note kind '{0}'`. -/
def NoteKind.try_from_sql_enum (sql_enum : Chars) : Except Chars NoteKind :=
  if sql_enum = "note".data then .ok .note
  else if sql_enum = "daily".data then .ok .daily
  else .error ("invalid note kind '".data ++ sql_enum ++ "'".data)

structure IndexedNote where
  preamble : Preamble
  kind : NoteKind
deriving DecidableEq, Repr

/-- One stored row of the `notes` table. SQLite integers are 64-bit, so
`utc_offset_seconds` carries the stored value as an unbounded `Int` standing
for that `i64`; `unpack_row` fetches it as `i32`, and `row.get` fails — a
`DatabaseFailure`, not an `InvalidRow` — when the stored value does not fit.
The text columns are carried as text: this program only ever writes text
there, and a blob smuggled into one would fail its `row.get` on the same
`DatabaseFailure` channel the integer column exhibits. -/
structure DbRow where
  filepath : Chars
  title : Chars
  created_at : Chars
  utc_offset_seconds : Int
  kind : Chars
deriving DecidableEq, Repr

/-- A `rusqlite::Error`, opaque at this level. -/
structure RusqliteError where
  message : Chars
deriving DecidableEq, Repr

inductive QueryFailure
  | invalidRow (msg : Chars)
  | databaseFailure (err : RusqliteError)
deriving DecidableEq, Repr

structure LookupError where
  err : RusqliteError
deriving DecidableEq, Repr

/-- Decimal rendering of an `i32`, for the row error messages. -/
def intDecimal (n : Int) : Chars :=
  if n < 0 then '-' :: natDecimal n.natAbs else natDecimal n.toNat

/-- `%Y` parsing: a greedy run of ASCII digits (chrono reads at most six;
a seventh digit makes the following literal `-` fail to match either way).
Negative years carry a sign chrono would accept; they never occur in rows
this program writes and are outside the modelled domain. -/
def parseYear (s : Chars) : Option (Nat × Chars) :=
  let ds := s.takeWhile Char.isDigit
  if 1 ≤ ds.length ∧ ds.length ≤ 6 then some (foldDigits ds, s.drop ds.length)
  else none

/-- A width-2 numeric format item (`%m`, `%d`, `%H`, `%M`, `%S`): chrono
accepts one or two digits, greedily. -/
def parseUpTo2 (s : Chars) : Option (Nat × Chars) :=
  match s with
  | c1 :: c2 :: rest =>
    if c1.isDigit then
      if c2.isDigit then some (digitVal c1 * 10 + digitVal c2, rest)
      else some (digitVal c1, c2 :: rest)
    else none
  | [c1] => if c1.isDigit then some (digitVal c1, []) else none
  | [] => none

structure NaiveDateTime where
  year : Nat
  month : Nat
  day : Nat
  hour : Nat
  minute : Nat
  second : Nat
  nanosecond : Nat
deriving DecidableEq, Repr

/-- `NaiveDateTime::parse_from_str` at the fixed format
`%Y-%m-%dT%H:%M:%S%.f`: the numeric fields in sequence with the literal
separators, `%.f` an optional dot-led fraction (`parseFraction`), the whole
input consumed, and the fields a real calendar date with an in-range time of
day. Leap-second timestamps (`second = 60`) are outside the modelled
domain. -/
def NaiveDateTime.parse_from_str (s : Chars) : Option NaiveDateTime := do
  let (y, s) ← parseYear s
  let s ← expectChar '-' s
  let (mo, s) ← parseUpTo2 s
  let s ← expectChar '-' s
  let (d, s) ← parseUpTo2 s
  let s ← expectChar 'T' s
  let (h, s) ← parseUpTo2 s
  let s ← expectChar ':' s
  let (mi, s) ← parseUpTo2 s
  let s ← expectChar ':' s
  let (se, s) ← parseUpTo2 s
  let (ns, s) ←
    match s with
    | '.' :: _ => parseFraction s
    | _ => some (0, s)
  if s = [] ∧ 1 ≤ mo ∧ mo ≤ 12 ∧ 1 ≤ d ∧ d ≤ daysInMonth (y : Int) mo ∧
      h < 24 ∧ mi < 60 ∧ se < 60 then
    some ⟨y, mo, d, h, mi, se, ns⟩
  else none

/-- `datetime_from_database`: build the `FixedOffset`
(`east_opt` fails outside the exclusive ±86400 range), then parse the naive
timestamp; for a fixed offset `from_local_datetime(..).single()` always
succeeds, so the result is the parsed fields stamped with the offset. The
chrono `{err}` detail interpolated into the message is omitted from the
model. -/
def datetime_from_database (timestamp : Chars) (utc_offset_seconds : Int) :
    Except QueryFailure CDateTime :=
  if utc_offset_seconds ≤ -86400 ∨ 86400 ≤ utc_offset_seconds then
    .error (.invalidRow ("Invalid UTC offset \"".data ++
      intDecimal utc_offset_seconds ++ "\"".data))
  else
    match NaiveDateTime.parse_from_str timestamp with
    | none => .error (.invalidRow ("Invalid date \"".data ++ timestamp ++ "\"".data))
    | some n =>
      .ok ⟨n.year, n.month, n.day, n.hour, n.minute, n.second, n.nanosecond,
        utc_offset_seconds⟩

/-- `unpack_row`: the five `row.get`s — of which `get(3)` fetches the
stored integer as `i32` and fails with rusqlite's
`IntegralValueOutOfRange` (a `DatabaseFailure` via the `?` and the `From`
impl) when it does not fit — then the infallible `PathBuf` conversion and
the two fallible parses, whose failures are `InvalidRow`. -/
def unpack_row (row : DbRow) : Except QueryFailure (Chars × IndexedNote) :=
  if row.utc_offset_seconds < -2147483648 ∨ 2147483647 < row.utc_offset_seconds then
    .error (.databaseFailure ⟨"Integer ".data ++ intDecimal row.utc_offset_seconds ++
      " out of range at index 3".data⟩)
  else
    match datetime_from_database row.created_at row.utc_offset_seconds with
    | .error e => .error e
    | .ok created_at =>
      match NoteKind.try_from_sql_enum row.kind with
      | .error msg => .error (.invalidRow msg)
      | .ok kind => .ok (row.filepath, ⟨⟨row.title, created_at⟩, kind⟩)

/-- Assoc-list model of `HashMap` insertion: a later value for an existing
key replaces the earlier one. -/
def hashMapInsert (m : List (Chars × IndexedNote)) (k : Chars) (v : IndexedNote) :
    List (Chars × IndexedNote) :=
  match m with
  | [] => [(k, v)]
  | (k0, v0) :: rest =>
    if k0 = k then (k, v) :: rest else (k0, v0) :: hashMapInsert rest k v

/-- The `query_map` closure, `filter_map(Result::transpose)` and
`collect::<Result<HashMap, _>>` pipeline of `all_notes`: a
`DatabaseFailure` from a row aborts the whole collect, an `InvalidRow`
prints the `"{msg}; skipping entry"` warning and yields nothing, an
unpacked row is inserted into the map. -/
def all_notes_go (rows : List DbRow) (acc : List (Chars × IndexedNote))
    (ws : List Chars) :
    Except LookupError (List (Chars × IndexedNote)) × List Chars :=
  match rows with
  | [] => (.ok acc, ws)
  | row :: rest =>
    match unpack_row row with
    | .error (.databaseFailure e) => (.error ⟨e⟩, ws)
    | .error (.invalidRow msg) =>
      all_notes_go rest acc (ws ++ [msg ++ "; skipping entry".data])
    | .ok p => all_notes_go rest (hashMapInsert acc p.1 p.2) ws

/-- `all_notes` over the stored rows; the second component is the warnings
printed along the way. -/
def all_notes (rows : List DbRow) :
    Except LookupError (List (Chars × IndexedNote)) × List Chars :=
  all_notes_go rows [] []

/-! ## Index lemmas -/

theorem datetime_from_database_error_invalid {ts : Chars} {off : Int} {e : QueryFailure}
    (h : datetime_from_database ts off = .error e) : ∃ msg, e = .invalidRow msg := by
  unfold datetime_from_database at h
  split at h
  · injection h with h
    exact ⟨_, h.symm⟩
  · split at h
    · injection h with h
      exact ⟨_, h.symm⟩
    · exact absurd h (by simp)

/-- A successful `east_opt` pins the offset strictly inside ±86400 (so in
particular inside `i32`). -/
theorem datetime_from_database_ok_range {ts : Chars} {off : Int} {dt : CDateTime}
    (h : datetime_from_database ts off = .ok dt) : ¬(off ≤ -86400 ∨ 86400 ≤ off) := by
  unfold datetime_from_database at h
  split at h
  · exact absurd h (by simp)
  · next hcond => exact hcond

/-- On a row whose stored offset fits `i32` (so `row.get` succeeds), any
`unpack_row` failure is an `InvalidRow`. -/
theorem unpack_row_error_invalid {row : DbRow} {e : QueryFailure}
    (hrange : ¬(row.utc_offset_seconds < -2147483648 ∨
      2147483647 < row.utc_offset_seconds))
    (h : unpack_row row = .error e) : ∃ msg, e = .invalidRow msg := by
  unfold unpack_row at h
  rw [if_neg hrange] at h
  split at h
  · next hdt => exact datetime_from_database_error_invalid (by rw [hdt]; injection h with h; rw [h])
  · split at h
    · injection h with h
      exact ⟨_, h.symm⟩
    · exact absurd h (by simp)

theorem unpack_row_ok_filepath {row : DbRow} {p : Chars × IndexedNote}
    (h : unpack_row row = .ok p) : p.1 = row.filepath := by
  unfold unpack_row at h
  split at h
  · exact absurd h (by simp)
  · split at h
    · exact absurd h (by simp)
    · split at h
      · exact absurd h (by simp)
      · injection h with h
        rw [← h]

theorem hashMapInsert_of_not_mem (m : List (Chars × IndexedNote)) (k : Chars)
    (v : IndexedNote) (h : k ∉ m.map Prod.fst) : hashMapInsert m k v = m ++ [(k, v)] := by
  induction m with
  | nil => rfl
  | cons kv rest ih =>
    obtain ⟨k0, v0⟩ := kv
    simp only [List.map_cons, List.mem_cons, not_or] at h
    rw [hashMapInsert, if_neg (fun hq => h.1 hq.symm), ih h.2]
    rfl

/-- The rows `all_notes` keeps, in row order. -/
def keptPairs (rows : List DbRow) : List (Chars × IndexedNote) :=
  rows.filterMap fun r =>
    match unpack_row r with
    | .ok p => some p
    | .error _ => none

/-- The warnings `all_notes` prints, in row order. -/
def skipWarnings (rows : List DbRow) : List Chars :=
  rows.filterMap fun r =>
    match unpack_row r with
    | .error (.invalidRow msg) => some (msg ++ "; skipping entry".data)
    | _ => none

theorem keptPairs_keys_sublist (rows : List DbRow) :
    ((keptPairs rows).map Prod.fst).Sublist (rows.map DbRow.filepath) := by
  induction rows with
  | nil => simp [keptPairs]
  | cons row rest ih =>
    cases hu : unpack_row row with
    | error e =>
      have hkp : keptPairs (row :: rest) = keptPairs rest := by
        rw [keptPairs, List.filterMap_cons, hu, keptPairs]
      rw [hkp, List.map_cons]
      exact ih.trans (List.sublist_cons_self _ _)
    | ok p =>
      have hkp : keptPairs (row :: rest) = p :: keptPairs rest := by
        rw [keptPairs, List.filterMap_cons, hu, keptPairs]
      rw [hkp, List.map_cons, List.map_cons, unpack_row_ok_filepath hu]
      exact ih.cons₂ _

theorem all_notes_go_spec (rows : List DbRow) (acc : List (Chars × IndexedNote))
    (ws : List Chars)
    (hok : ∀ r ∈ rows, ¬(r.utc_offset_seconds < -2147483648 ∨
      2147483647 < r.utc_offset_seconds))
    (hkeys : (acc.map Prod.fst ++ (keptPairs rows).map Prod.fst).Pairwise (· ≠ ·)) :
    all_notes_go rows acc ws = (.ok (acc ++ keptPairs rows), ws ++ skipWarnings rows) := by
  induction rows generalizing acc ws with
  | nil => simp [all_notes_go, keptPairs, skipWarnings]
  | cons row rest ih =>
    have hok' : ∀ r ∈ rest, ¬(r.utc_offset_seconds < -2147483648 ∨
        2147483647 < r.utc_offset_seconds) :=
      fun r hr => hok r (List.mem_cons_of_mem _ hr)
    have hkp : keptPairs (row :: rest) =
        (match unpack_row row with | .ok p => some p | .error _ => none).toList ++
          keptPairs rest := by
      rw [keptPairs, List.filterMap_cons, keptPairs]
      cases unpack_row row <;> simp
    have hsw : skipWarnings (row :: rest) =
        (match unpack_row row with
          | .error (.invalidRow msg) => some (msg ++ "; skipping entry".data)
          | _ => none).toList ++ skipWarnings rest := by
      rw [skipWarnings, List.filterMap_cons, skipWarnings]
      cases hu : unpack_row row with
      | ok p => simp
      | error e => cases e <;> simp
    cases hu : unpack_row row with
    | error e =>
      obtain ⟨msg, rfl⟩ :=
        unpack_row_error_invalid (hok row (List.mem_cons_self row rest)) hu
      rw [all_notes_go, hu]
      rw [hkp, hu] at hkeys ⊢
      rw [hsw, hu]
      simp only [Option.toList, List.nil_append] at hkeys ⊢
      rw [ih acc _ hok' hkeys]
      simp
    | ok p =>
      rw [all_notes_go, hu]
      rw [hkp, hu] at hkeys ⊢
      rw [hsw, hu]
      simp only [Option.toList, List.singleton_append, List.map_cons] at hkeys ⊢
      have hnotmem : p.1 ∉ acc.map Prod.fst := by
        rw [List.pairwise_append] at hkeys
        intro hmem
        exact hkeys.2.2 p.1 hmem p.1 (List.mem_cons_self p.1 _) rfl
      rw [hashMapInsert_of_not_mem acc p.1 p.2 hnotmem]
      have hkeys' : ((acc ++ [p]).map Prod.fst ++ (keptPairs rest).map Prod.fst).Pairwise
          (· ≠ ·) := by
        simp only [List.map_append, List.map_cons, List.map_nil, List.append_assoc,
          List.singleton_append]
        simpa using hkeys
      rw [ih (acc ++ [p]) ws hok' hkeys']
      simp

/-- C6 counterexample: "a corrupt row never makes the whole query fail and
never hides sibling valid rows" is false. A row whose stored
`utc_offset_seconds` does not fit `i32` (here 2^40) makes `row.get(3)` fail
with rusqlite's out-of-range error — a `DatabaseFailure`, which the
`query_map` closure returns as `Err` and `collect::<Result<..>>` turns
into a `LookupError` for the whole query. The second conjunct shows the
sibling row is valid on its own (its `unpack_row` succeeds), yet the query
result carries no rows at all. -/
theorem all_notes_aborts_on_out_of_range_offset :
    ((1099511627776 : Int) < -2147483648 ∨ (2147483647 : Int) < 1099511627776) ∧
    all_notes
        [⟨"/n/bad.txt".data, "B".data, "2015-10-21T07:28:00".data, 1099511627776,
          "note".data⟩,
         ⟨"/n/a.txt".data, "A".data, "2015-10-21T07:28:00".data, -25200, "note".data⟩] =
      (.error ⟨⟨"Integer 1099511627776 out of range at index 3".data⟩⟩, []) ∧
    unpack_row ⟨"/n/a.txt".data, "A".data, "2015-10-21T07:28:00".data, -25200,
        "note".data⟩ =
      .ok ("/n/a.txt".data, ⟨⟨"A".data, ⟨2015, 10, 21, 7, 28, 0, 0, -25200⟩⟩, .note⟩) := by
  refine ⟨by decide, by decide, by decide⟩

/-- C6 (amended): over every stored table state whose rows have pairwise
distinct filepaths (the `filepath` column is the table's primary key) and
whose stored offsets fit `i32` — so every `row.get` succeeds; a row
violating that aborts the whole query, see the counterexample —
`all_notes` returns `Ok`, and its result is exactly the unpacked form of
those rows whose timestamp, UTC offset and kind all parse, in store order;
every row where any of these parses fails is skipped and contributes
exactly one `"{msg}; skipping entry"` warning; and a row unpacks
successfully if and only if its `created_at` string together with its
offset survives `datetime_from_database` and its kind string survives
`NoteKind::try_from_sql_enum`. -/
theorem all_notes_skips_only_unparseable (rows : List DbRow)
    (hkeys : (rows.map DbRow.filepath).Pairwise (· ≠ ·))
    (hi32 : ∀ r ∈ rows, -2147483648 ≤ r.utc_offset_seconds ∧
      r.utc_offset_seconds ≤ 2147483647) :
    all_notes rows = (.ok (keptPairs rows), skipWarnings rows) ∧
    ∀ r ∈ rows,
      (∃ p, unpack_row r = .ok p) ↔
        ((∃ dt, datetime_from_database r.created_at r.utc_offset_seconds = .ok dt) ∧
         (∃ k, NoteKind.try_from_sql_enum r.kind = .ok k)) := by
  constructor
  · have h := all_notes_go_spec rows [] []
      (fun r hr => by have := hi32 r hr; omega)
      (by
        simp only [List.map_nil, List.nil_append]
        exact List.Pairwise.sublist (keptPairs_keys_sublist rows) hkeys)
    simpa [all_notes] using h
  · intro r _
    constructor
    · rintro ⟨p, hp⟩
      unfold unpack_row at hp
      split at hp
      · exact absurd hp (by simp)
      · split at hp
        · exact absurd hp (by simp)
        · next dt hdt =>
          split at hp
          · exact absurd hp (by simp)
          · next k hk => exact ⟨⟨dt, hdt⟩, k, hk⟩
    · rintro ⟨⟨dt, hdt⟩, k, hk⟩
      refine ⟨(r.filepath, ⟨⟨r.title, dt⟩, k⟩), ?_⟩
      have hrange := datetime_from_database_ok_range hdt
      unfold unpack_row
      rw [if_neg (by omega), hdt, hk]

/-- Witness for C6: three rows — one valid, one with an unparseable
timestamp, one with an unknown kind — produce exactly the valid row and two
skip warnings. -/
theorem all_notes_skips_only_unparseable_witness :
    (([⟨"/n/a.txt".data, "A".data, "2015-10-21T07:28:00".data, -25200, "note".data⟩,
       ⟨"/n/b.txt".data, "B".data, "malformed timestamp".data, 0, "note".data⟩,
       ⟨"/n/c.txt".data, "C".data, "2015-10-21T07:28:00".data, 0, "party".data⟩] :
        List DbRow).map DbRow.filepath).Pairwise (· ≠ ·) ∧
    all_notes
        [⟨"/n/a.txt".data, "A".data, "2015-10-21T07:28:00".data, -25200, "note".data⟩,
         ⟨"/n/b.txt".data, "B".data, "malformed timestamp".data, 0, "note".data⟩,
         ⟨"/n/c.txt".data, "C".data, "2015-10-21T07:28:00".data, 0, "party".data⟩] =
      (.ok [("/n/a.txt".data,
             ⟨⟨"A".data, ⟨2015, 10, 21, 7, 28, 0, 0, -25200⟩⟩, .note⟩)],
       ["Invalid date \"malformed timestamp\"; skipping entry".data,
        "invalid note kind 'party'; skipping entry".data]) := by
  have h := all_notes_skips_only_unparseable
    [⟨"/n/a.txt".data, "A".data, "2015-10-21T07:28:00".data, -25200, "note".data⟩,
     ⟨"/n/b.txt".data, "B".data, "malformed timestamp".data, 0, "note".data⟩,
     ⟨"/n/c.txt".data, "C".data, "2015-10-21T07:28:00".data, 0, "party".data⟩]
    (by decide) (by decide)
  refine ⟨by decide, ?_⟩
  rw [h.1]
  decide

/-! ## The library orchestration (lib.rs, edit.rs)

This snapshot's lib.rs carries its own storage helpers (`copy_to_destination`
distinguishing `DestinationExists`, `store_note_in` joining the preferred
filename directly) alongside the index plumbing; the lib-level model below
mirrors that file. The index connection is viewed abstractly here as a map
from note paths to preambles, with fault-injection switches for the
connection operations. -/

/-- Overwrite (or create) the file at `p`. -/
def fsSet (fs : FS) (p : FsPath) (c : Chars) : FS :=
  match fs with
  | [] => [(p, c)]
  | (q, c0) :: rest => if q = p then (p, c) :: rest else (q, c0) :: fsSet rest p c

theorem fsGet_fsSet (fs : FS) (p : FsPath) (c : Chars) : fsGet (fsSet fs p c) p = some c := by
  induction fs with
  | nil => rw [fsSet, fsGet, if_pos rfl]
  | cons kv rest ih =>
    obtain ⟨q, c0⟩ := kv
    by_cases hq : q = p
    · rw [fsSet, if_pos hq, fsGet, if_pos rfl]
    · rw [fsSet, if_neg hq, fsGet, if_neg hq, ih]

/-- A `CommandEditor` run: the command name, whether spawning it succeeds,
the exit status the process eventually reports, and the rewrite the user
performs on the file while the editor is open. -/
structure EditorProcess where
  command : Chars
  spawnOk : Bool
  exitCode : Nat
  userEdit : Chars → Chars

/-- `CommandEditor::edit`: spawn the command on the path and wait for it.
The exit status is discarded by `.map(|_output| ())`, so a non-zero exit is
not an error and is not even observable to the caller. While the editor
runs the user rewrites the file (creating it on save if absent). -/
def CommandEditor.edit (ed : EditorProcess) (path : FsPath) (fs : FS) :
    Except IoErrorKind Unit × FS :=
  if ed.spawnOk then
    (.ok (), fsSet fs path (ed.userEdit ((fsGet fs path).getD [])))
  else (.error .other, fs)

/-- `OpenInEditorError { editor, err }`. -/
structure OpenInEditorError where
  editor : Chars
  err : IoErrorKind
deriving DecidableEq, Repr

namespace Lib

/-- `open_in_editor`: tag an editor failure with the editor's name. -/
def open_in_editor (ed : EditorProcess) (path : FsPath) (fs : FS) :
    Except OpenInEditorError Unit × FS :=
  match CommandEditor.edit ed path fs with
  | (.ok _, fs') => (.ok (), fs')
  | (.error e, fs') => (.error ⟨ed.command, e⟩, fs')

/-- The index as this file sees it: note path to preamble. -/
abbrev IndexDb := List (FsPath × Preamble)

def dbLookup (db : IndexDb) (p : FsPath) : Option Preamble :=
  match db with
  | [] => none
  | (q, v) :: rest => if q = p then some v else dbLookup rest p

/-- `index::add_note`'s upsert. -/
def dbInsert (db : IndexDb) (p : FsPath) (v : Preamble) : IndexDb :=
  match db with
  | [] => [(p, v)]
  | (q, v0) :: rest => if q = p then (p, v) :: rest else (q, v0) :: dbInsert rest p v

/-- `index::delete_note`'s row removal. -/
def dbDelete (db : IndexDb) (p : FsPath) : IndexDb :=
  match db with
  | [] => []
  | (q, v) :: rest => if q = p then dbDelete rest p else (q, v) :: dbDelete rest p

/-- Fault-injection switches for the index connection: whether
`open_index_database` succeeds and whether the SQL of `add_note` /
`delete_note` succeeds. -/
structure IndexCtx where
  openOk : Bool
  addOk : Bool
  deleteOk : Bool
deriving DecidableEq, Repr

inductive IndexNoteError
  | openError (err : IoErrorKind)
  | preambleError (err : InvalidPreambleError)
  | indexError (err : RusqliteError)
deriving DecidableEq, Repr

/-- `index_note`: open the note file, extract its preamble, upsert it into
the index. -/
def index_note (ctx : IndexCtx) (db : IndexDb) (fs : FS) (path : FsPath) :
    Except IndexNoteError IndexDb :=
  match fsGet fs path with
  | none => .error (.openError .other)
  | some content =>
    match extract_preamble content with
    | .error e => .error (.preambleError e)
    | .ok preamble =>
      if ctx.addOk then .ok (dbInsert db path preamble)
      else .error (.indexError ⟨"could not insert into index database".data⟩)

/-- `index::DeleteError`; the `BadPath` variant cannot fire for the UTF-8
paths of this model. -/
inductive DeleteError
  | databaseError (err : RusqliteError)
deriving DecidableEq, Repr

/-- `index::delete_note` under the connection's fault switch. -/
def delete_note (ctx : IndexCtx) (db : IndexDb) (path : FsPath) :
    Except DeleteError IndexDb :=
  if ctx.deleteOk then .ok (dbDelete db path)
  else .error (.databaseError ⟨"could not delete from index database".data⟩)

/-- The warnings this layer prints. `reindexStaleRemains` is the message
"After editing, the note could not be reindexed. There was a subsequent
failure that prevented it from being removed from the index, so there is
now a stale entry. You can fix this by running `quicknotes index`. Original
error: {err}; Delete error: {delete_err}"; the recovery command it names is
kept as a field. `reindexRemovedStale` is the message "After editing, the
note could not be reindexed. It has been removed from the index. Original
error: {err}". -/
inductive LibWarning
  | reindexRemovedStale (originalError : InvalidPreambleError)
  | reindexStaleRemains (recoveryCommand : Chars) (originalError : InvalidPreambleError)
      (deleteError : DeleteError)
deriving DecidableEq, Repr

inductive OpenExistingNoteInEditorError
  | editorSpawnError (e : OpenInEditorError)
  | indexOpenError
  | indexNoteError (e : IndexNoteError)
deriving DecidableEq, Repr

/-- `open_existing_note_in_editor`: run the editor on the note, then
re-index it; a `PreambleError` from the re-index is recovered (`or_else`) by
deleting the note's now-stale index entry — with a warning whether or not
that delete works — while any other index failure propagates. -/
def open_existing_note_in_editor (ed : EditorProcess) (ctx : IndexCtx)
    (path : FsPath) (fs : FS) (db : IndexDb) :
    Except OpenExistingNoteInEditorError Unit × FS × IndexDb × List LibWarning :=
  match open_in_editor ed path fs with
  | (.error e, fs1) => (.error (.editorSpawnError e), fs1, db, [])
  | (.ok _, fs1) =>
    if ctx.openOk then
      match index_note ctx db fs1 path with
      | .ok db' => (.ok (), fs1, db', [])
      | .error (.preambleError e) =>
        match delete_note ctx db path with
        | .ok db' => (.ok (), fs1, db', [.reindexRemovedStale e])
        | .error de =>
          (.ok (), fs1, db, [.reindexStaleRemains "quicknotes index".data e de])
      | .error err => (.error (.indexNoteError err), fs1, db, [])
    else (.error .indexOpenError, fs1, db, [])

/-- lib.rs's own `CopyToDestinationError`, with the exists case promoted to
its own variant. -/
inductive CopyToDestinationError
  | destinationExists
  | ioError (err : IoErrorKind)
deriving DecidableEq, Repr

/-- lib.rs's own `copy_to_destination` (same exclusive create as
storage.rs's, different error shape). -/
def copy_to_destination (t : TempFileHandle) (dest : FsPath) (fs : FS) :
    Except CopyToDestinationError Unit × TempFileHandle × FS :=
  match fsGet fs dest with
  | some _ => (.error .destinationExists, t, fs)
  | none => (.ok (), { t with pos := t.contents.length }, (dest, t.remaining) :: fs)

inductive StoreNoteInError
  | copyError (src : FsPath) (err : IoErrorKind)
  | noteClobberPreventionError (src : FsPath)
  | tryPreserveNoteError (e : TryPreserveNoteError)
deriving DecidableEq, Repr

/-- The retry loop of lib.rs's `store_note_in`; fuel, panics and the
unchanged staged state across failed rounds exactly as in
`do_store_loop`. -/
def store_note_in_loop (t : TempFileHandle) (fs : FS) :
    FsPath → Nat → List Event → Option (Except StoreNoteInError FsPath) × FS × List Event
  | _, 0, log => (none, fs, log)
  | dest, fuel + 1, log =>
    match copy_to_destination t dest fs with
    | (.ok _, _, fs') => (some (.ok dest), fs', log)
    | (.error .destinationExists, _, fs') =>
      match generate_unclobbered_destination fs' dest with
      | some newDest => store_note_in_loop t fs newDest fuel (log ++ [.warnedExists dest])
      | none => (none, fs', log ++ [.warnedExists dest])
    | (.error (.ioError err), t', fs') =>
      match try_preserve_note t' fs' with
      | (.ok _, fs'', plog) => (some (.error (.copyError t'.path err)), fs'', log ++ plog)
      | (.error pe, fs'', plog) => (some (.error (.tryPreserveNoteError pe)), fs'', log ++ plog)

/-- lib.rs's `store_note_in`: first candidate joins the preferred filename
directly onto the storage directory. -/
def store_note_in (t : TempFileHandle) (storage_dir : FsPath) (preferred_filename : Chars)
    (fs : FS) : Option (Except StoreNoteInError FsPath) × FS × List Event :=
  store_note_in_loop t fs (storage_dir ++ [preferred_filename]) (fs.length + 2) []

inductive WritePreambleError
  | openError (err : IoErrorKind)
  | encodeError (err : Chars)
  | writeError (err : IoErrorKind)
deriving DecidableEq, Repr

/-- `write_preamble`: open the existing file (`create(false)`) for writing
— without truncation, so the serialized preamble plus two newlines
overwrites from the start of whatever is there (on a fresh tempfile: the
whole content). -/
def write_preamble (preamble : Preamble) (path : FsPath) (fs : FS) :
    Except WritePreambleError FS :=
  match fsGet fs path with
  | none => .error (.openError .other)
  | some old =>
    match Preamble.serialize preamble with
    | .error e => .error (.encodeError e)
    | .ok s =>
      let written := s ++ "\n\n".data
      .ok (fsSet fs path (written ++ old.drop written.length))

inductive MakeNoteAtError
  | createTempfileError (err : IoErrorKind)
  | writePreambleError (err : WritePreambleError)
  | storeNoteInError (dir : FsPath) (err : StoreNoteInError)
  | editorSpawnError (e : OpenInEditorError)
  | indexNoteError (e : IndexNoteError)
  | indexOpenError
deriving DecidableEq, Repr

/-- `make_note_in`: create a tempfile, write the preamble into it, run the
editor on it (whose exit status is discarded), store it into the
destination directory, open the index and index the stored note.
`temp_path` stands for the fresh name the tempfile builder picks; a
collision with an existing file surfaces on the tempfile-creation error
channel, standing in for the builder retrying elsewhere. The staged handle
passed to the store is the builder's own never-read file object: cursor at
the start, over the file's post-edit bytes. `none` propagates the store
loop's panic outcome. -/
def make_note_in (ed : EditorProcess) (ctx : IndexCtx) (title : Chars)
    (creation_time : CDateTime) (destination_dir : FsPath)
    (preferred_filename : Chars) (temp_path : FsPath) (fs : FS) (db : IndexDb) :
    Option (Except MakeNoteAtError FsPath × FS × IndexDb × List Event) :=
  match fsGet fs temp_path with
  | some _ => some (.error (.createTempfileError .alreadyExists), fs, db, [])
  | none =>
    let fs1 : FS := (temp_path, []) :: fs
    match write_preamble ⟨title, creation_time⟩ temp_path fs1 with
    | .error e => some (.error (.writePreambleError e), fs1, db, [])
    | .ok fs2 =>
      match open_in_editor ed temp_path fs2 with
      | (.error e, fs3) => some (.error (.editorSpawnError e), fs3, db, [])
      | (.ok _, fs3) =>
        match store_note_in ⟨temp_path, (fsGet fs3 temp_path).getD [], 0⟩
            destination_dir preferred_filename fs3 with
        | (none, _, _) => none
        | (some (.error e), fs4, log) =>
          some (.error (.storeNoteInError destination_dir e), fs4, db, log)
        | (some (.ok dest), fs4, log) =>
          if ctx.openOk then
            match index_note ctx db fs4 dest with
            | .error e => some (.error (.indexNoteError e), fs4, db, log)
            | .ok db' => some (.ok dest, fs4, db', log)
          else some (.error .indexOpenError, fs4, db, log)

theorem dbLookup_dbDelete (db : IndexDb) (p : FsPath) :
    dbLookup (dbDelete db p) p = none := by
  induction db with
  | nil => rfl
  | cons kv rest ih =>
    obtain ⟨q, v⟩ := kv
    by_cases hq : q = p
    · rw [dbDelete, if_pos hq, ih]
    · rw [dbDelete, if_neg hq, dbLookup, if_neg hq, ih]

end Lib

/-! ## Claim C8 -/

/-- C8 (amended): the editor's exit status is discarded
(`CommandEditor::edit` maps every successful wait to `Ok(())`), so a
non-zero exit raises no error — but it is not treated as "nothing to
commit" either: `make_note_in` behaves identically for every exit status,
committing and indexing the note all the same. -/
theorem make_note_in_ignores_editor_exit_status
    (command : Chars) (s : Bool) (u : Chars → Chars) (c₁ c₂ : Nat)
    (ctx : Lib.IndexCtx) (title : Chars) (creation_time : CDateTime)
    (destination_dir : FsPath) (preferred_filename : Chars) (temp_path : FsPath)
    (fs : FS) (db : Lib.IndexDb) :
    Lib.make_note_in ⟨command, s, c₁, u⟩ ctx title creation_time destination_dir
        preferred_filename temp_path fs db =
      Lib.make_note_in ⟨command, s, c₂, u⟩ ctx title creation_time destination_dir
        preferred_filename temp_path fs db := rfl

set_option synthInstance.maxSize 1000 in
set_option maxRecDepth 4000 in
/-- C8 counterexample: the claim "non-zero exit means no note is committed"
is false. The editor exits with status 1, yet `make_note_in` succeeds,
creates the note at its destination, and indexes it. -/
theorem make_note_in_commits_despite_nonzero_exit :
    (1 : Nat) ≠ 0 ∧
    Lib.make_note_in ⟨"vi".data, true, 1, fun c => c⟩ ⟨true, true, true⟩
        "Hello world".data ⟨2015, 10, 21, 7, 28, 0, 0, -25200⟩
        ["notes".data] "hello-world.md".data ["tmp".data, "qn.md".data] [] [] =
      some (.ok ["notes".data, "hello-world.md".data],
        [(["notes".data, "hello-world.md".data],
          "---\ntitle = \"Hello world\"\ncreated_at = 2015-10-21T07:28:00-07:00\n---\n\n".data),
         (["tmp".data, "qn.md".data],
          "---\ntitle = \"Hello world\"\ncreated_at = 2015-10-21T07:28:00-07:00\n---\n\n".data)],
        [(["notes".data, "hello-world.md".data],
          ⟨"Hello world".data, ⟨2015, 10, 21, 7, 28, 0, 0, -25200⟩⟩)],
        []) := by
  refine ⟨by decide, ?_⟩
  decide

/-! ## Claim C9 -/

/-- C9: when the editor leaves the note with an unparseable preamble, the
re-index path of `open_existing_note_in_editor` deletes the note's stale
index entry (so no entry for the path remains) and the operation still
returns `Ok`; if the delete itself fails, the stale entry stays but a
warning naming the recovery command `quicknotes index` is printed and the
operation still returns `Ok`. -/
theorem reindex_failure_deletes_stale_entry (ed : EditorProcess) (ctx : Lib.IndexCtx)
    (path : FsPath) (fs : FS) (db : Lib.IndexDb) (content : Chars)
    (e : InvalidPreambleError)
    (hspawn : ed.spawnOk = true) (hopen : ctx.openOk = true)
    (hfile : fsGet fs path = some content)
    (hparse : extract_preamble (ed.userEdit content) = .error e) :
    (ctx.deleteOk = true →
      Lib.open_existing_note_in_editor ed ctx path fs db =
        (.ok (), fsSet fs path (ed.userEdit content), Lib.dbDelete db path,
         [.reindexRemovedStale e]) ∧
      Lib.dbLookup (Lib.dbDelete db path) path = none) ∧
    (ctx.deleteOk = false →
      Lib.open_existing_note_in_editor ed ctx path fs db =
        (.ok (), fsSet fs path (ed.userEdit content), db,
         [.reindexStaleRemains "quicknotes index".data e
            (.databaseError ⟨"could not delete from index database".data⟩)])) := by
  have hedit : CommandEditor.edit ed path fs =
      (.ok (), fsSet fs path (ed.userEdit content)) := by
    rw [CommandEditor.edit, if_pos hspawn, hfile]
    rfl
  have hfs1 := fsGet_fsSet fs path (ed.userEdit content)
  have hidx : Lib.index_note ctx db (fsSet fs path (ed.userEdit content)) path =
      .error (.preambleError e) := by
    simp only [Lib.index_note, hfs1, hparse]
  refine ⟨fun hdel => ⟨?_, Lib.dbLookup_dbDelete db path⟩, fun hdel => ?_⟩
  · simp only [Lib.open_existing_note_in_editor, Lib.open_in_editor, hedit, hopen, if_true,
      hidx, Lib.delete_note, hdel]
  · simp only [Lib.open_existing_note_in_editor, Lib.open_in_editor, hedit, hopen, if_true,
      hidx, Lib.delete_note, hdel, Bool.false_eq_true, if_false]

set_option synthInstance.maxSize 1000 in
/-- Witness for C9: a concrete editor rewrite that destroys the preamble;
with a working delete the stale entry vanishes, and the operation
succeeds. -/
theorem reindex_failure_deletes_stale_entry_witness :
    Lib.open_existing_note_in_editor ⟨"vi".data, true, 0, fun _ => "garbage".data⟩
        ⟨true, true, true⟩ ["n.md".data]
        [(["n.md".data], "old".data)] [(["n.md".data], ⟨"t".data, ⟨2015, 10, 21, 7, 28, 0, 0, 0⟩⟩)] =
      (.ok (), [(["n.md".data], "garbage".data)], [],
       [.reindexRemovedStale (.malformedFence "garbage".data)]) ∧
    Lib.dbLookup ([] : Lib.IndexDb) ["n.md".data] = none := by
  have h := reindex_failure_deletes_stale_entry
    ⟨"vi".data, true, 0, fun _ => "garbage".data⟩ ⟨true, true, true⟩
    ["n.md".data] [(["n.md".data], "old".data)]
    [(["n.md".data], ⟨"t".data, ⟨2015, 10, 21, 7, 28, 0, 0, 0⟩⟩)]
    "old".data (.malformedFence "garbage".data) rfl rfl (by decide) (by decide)
  obtain ⟨heq, hgone⟩ := h.1 rfl
  constructor
  · rw [heq]
    decide
  · exact hgone

end Quicknotes
